import Mathlib

/-!
Verification of the pesapal-rdbms storage engine, B-tree index and execution
engine against its specification.  The Go source is shallowly embedded:

* Go `interface{}` row/key values become the tagged union `Value`
  (integer, text, boolean, float, and the nil interface as `Value.null`);
  the `float64` payload is modelled by an exact linearly ordered carrier
  (`Rat`), which is faithful for every claim considered here (no claim
  depends on IEEE rounding or NaN).
* Go slices become `List`, Go maps become association lists, Go in-place
  mutation becomes explicit state passing, and fallible functions return
  `Except`/`Option` with the distinct `fmt.Errorf` sites of the source
  turned into the constructors of `DBErr`.
* Statements that Go would abort with a panic (out-of-range slice index on
  malformed data) are totalised with a default; every such spot is marked
  with a comment and is unreachable on the well-formed states the theorems
  quantify over.
-/

/-- Row/key values: the dynamic types stored in Go `interface{}` cells.
`null` is the nil interface value. -/
inductive Value where
  | int (n : Int)
  | str (s : String)
  | bool (b : Bool)
  | float (q : Rat)
  | null
deriving DecidableEq, Repr

/-- Go `==` on two `interface{}` values: equal dynamic type and equal payload;
nil equals nil. This is exactly structural equality of `Value`. -/
def valueEq (a b : Value) : Bool := a = b

/-- `pkg/storage` `DataType`. -/
inductive DataType where
  | integer
  | varchar
  | boolean
  | float
deriving DecidableEq, Repr

/-- `pkg/storage` `Column`. -/
structure Column where
  name : String
  dataType : DataType
  size : Int
  primaryKey : Bool
  unique : Bool
  notNull : Bool
deriving DecidableEq, Repr

/-- `pkg/storage` `Schema`. -/
structure Schema where
  tableName : String
  columns : List Column
  primaryKeys : List String
  uniqueKeys : List String
deriving DecidableEq, Repr

/-- `NewSchema`. -/
def newSchema (tableName : String) : Schema :=
  { tableName := tableName, columns := [], primaryKeys := [], uniqueKeys := [] }

/-- `Schema.AddColumn`. -/
def Schema.addColumn (s : Schema) (col : Column) : Schema :=
  { s with
    columns := s.columns ++ [col]
    primaryKeys := if col.primaryKey then s.primaryKeys ++ [col.name] else s.primaryKeys
    uniqueKeys := if col.unique then s.uniqueKeys ++ [col.name] else s.uniqueKeys }

/-- The scan loop of `Schema.GetColumnIndex`, carrying the running index. -/
def getColumnIndexGo (name : String) : List Column → Int → Int
  | [], _ => -1
  | c :: rest, i => if c.name = name then i else getColumnIndexGo name rest (i + 1)

/-- `Schema.GetColumnIndex`: index of the column with the given name, `-1` if absent. -/
def Schema.getColumnIndex (s : Schema) (name : String) : Int :=
  getColumnIndexGo name s.columns 0

/-- `Schema.GetColumn`, with the `fmt.Errorf("column %s not found", name)` site
represented by `none`. -/
def Schema.getColumn (s : Schema) (name : String) : Option Column :=
  s.columns.find? (fun c => c.name = name)

/-- `pkg/storage` `Row`: `Values []interface{}`. -/
structure Row where
  values : List Value
deriving DecidableEq, Repr

/-- `NewRow`. -/
def newRow (values : List Value) : Row := { values := values }

/-- `Row.Get`: returns nil (here `Value.null`) when the index is out of range,
mirroring the explicit bounds check in the source. -/
def Row.get (r : Row) (index : Int) : Value :=
  if index < 0 ∨ (r.values.length : Int) ≤ index then Value.null
  else r.values.getD index.toNat Value.null

/-- `Row.Set`: leaves the row unchanged when the index is out of range,
mirroring the explicit bounds check in the source. -/
def Row.set (r : Row) (index : Int) (value : Value) : Row :=
  if 0 ≤ index ∧ index < (r.values.length : Int) then
    { values := r.values.set index.toNat value }
  else r

/-- The distinct error sites of the source, one constructor per
`fmt.Errorf` format string. -/
inductive DBErr where
  | nullNotAllowed (colName : String)
  | typeMismatch (colName : String)
  | stringTooLong (colName : String)
  | arityMismatch (got expected : Nat)
  | dupPrimaryKey (v : Value)
  | dupUniqueKey (colName : String) (v : Value)
  | columnNotFound (name : String)
  | tableExists (name : String)
  | tableNotFound (name : String)
  | indexExists (tableName colName : String)
  | duplicateKey (v : Value)
  | cannotCompare
  | unsupportedOperator (op : String)
  | unsupportedCondition
  | unsupportedExprInCondition
  | identWithoutRow
  | binaryInValues
  | unsupportedExprType
deriving DecidableEq, Repr

/-- `ValidateValue`: null/not-null check first, then an exact dynamic type
check per declared column type (Go also admits `float32` for FLOAT columns;
the embedding has a single float kind, which no claim distinguishes).
Go `len(str)` is a byte count; `String.length` stands in for it. -/
def validateValue (value : Value) (col : Column) : Except DBErr Unit :=
  match value with
  | .null => if col.notNull then .error (.nullNotAllowed col.name) else .ok ()
  | v =>
    match col.dataType with
    | .integer => match v with
      | .int _ => .ok ()
      | _ => .error (.typeMismatch col.name)
    | .varchar => match v with
      | .str s =>
        if 0 < col.size ∧ col.size < (s.length : Int) then .error (.stringTooLong col.name)
        else .ok ()
      | _ => .error (.typeMismatch col.name)
    | .boolean => match v with
      | .bool _ => .ok ()
      | _ => .error (.typeMismatch col.name)
    | .float => match v with
      | .float _ => .ok ()
      | _ => .error (.typeMismatch col.name)

/-- `pkg/storage` `Table` (the mutex is irrelevant to the sequential model). -/
structure Table where
  schema : Schema
  rows : List Row
deriving DecidableEq, Repr

/-- The per-value validation loop of `InsertRow` (`for i, col := range
t.Schema.Columns { ValidateValue(row.Values[i], col) }`), in lockstep over
columns and values; arity is checked by the caller first, so the lists have
equal length whenever this runs in the source. -/
def validateRowValues : List Column → List Value → Except DBErr Unit
  | [], _ => .ok ()
  | _ :: _, [] => .ok ()
  | col :: cols, v :: vs => do
    validateValue v col
    validateRowValues cols vs

/-- The primary-key uniqueness loop of `InsertRow`: for each primary-key
column name, compare the candidate value against every existing row with
Go `==` (note: no nil skip on this path, unlike the unique-key loop). -/
def checkPrimaryKeys (schema : Schema) (rows : List Row) (row : Row) :
    List String → Except DBErr Unit
  | [] => .ok ()
  | pkCol :: rest =>
    let pkIndex := schema.getColumnIndex pkCol
    if pkIndex = -1 then checkPrimaryKeys schema rows row rest
    else
      -- row.Values[pkIndex]; in range because arity was checked
      let pkValue := row.values.getD pkIndex.toNat Value.null
      if rows.any (fun er => valueEq (er.values.getD pkIndex.toNat Value.null) pkValue) then
        .error (.dupPrimaryKey pkValue)
      else checkPrimaryKeys schema rows row rest

/-- The unique-column loop of `InsertRow`: null candidate values are skipped
(`NULL values are allowed in unique columns`). -/
def checkUniqueKeys (schema : Schema) (rows : List Row) (row : Row) :
    List String → Except DBErr Unit
  | [] => .ok ()
  | uqCol :: rest =>
    let uqIndex := schema.getColumnIndex uqCol
    if uqIndex = -1 then checkUniqueKeys schema rows row rest
    else
      let uqValue := row.values.getD uqIndex.toNat Value.null
      if uqValue = Value.null then checkUniqueKeys schema rows row rest
      else if rows.any (fun er => valueEq (er.values.getD uqIndex.toNat Value.null) uqValue) then
        .error (.dupUniqueKey uqCol uqValue)
      else checkUniqueKeys schema rows row rest

/-- `Table.InsertRow`: arity check, per-value validation, primary-key scan,
unique-column scan; only a row passing every check is appended. On error the
table is returned unchanged (the source appends last, so a failing call
never mutates `t.Rows`). -/
def Table.insertRow (t : Table) (row : Row) : Table × Option DBErr :=
  if row.values.length ≠ t.schema.columns.length then
    (t, some (.arityMismatch row.values.length t.schema.columns.length))
  else
    match validateRowValues t.schema.columns row.values with
    | .error e => (t, some e)
    | .ok _ =>
      match checkPrimaryKeys t.schema t.rows row t.schema.primaryKeys with
      | .error e => (t, some e)
      | .ok _ =>
        match checkUniqueKeys t.schema t.rows row t.schema.uniqueKeys with
        | .error e => (t, some e)
        | .ok _ => ({ t with rows := t.rows ++ [row] }, none)

/-- `Table.SelectRows` returns a (shallow) copy of the row sequence. -/
def Table.selectRows (t : Table) : List Row := t.rows

/-- The inner update loop of `UpdateRows` over one matching row: resolve and
validate each assignment in turn, mutating the row as it goes; on the first
failure the assignments already applied to this row are kept (exactly the
source's in-place `row.Values[colIndex] = value` before a later iteration
fails). Go iterates a `map`, whose order is unspecified; the list fixes one
admissible iteration order. -/
def applyUpdates (schema : Schema) : Row → List (String × Value) → Row × Option DBErr
  | row, [] => (row, none)
  | row, (colName, value) :: rest =>
    let colIndex := schema.getColumnIndex colName
    if colIndex = -1 then (row, some (.columnNotFound colName))
    else
      match schema.columns.get? colIndex.toNat with
      | none => (row, some (.columnNotFound colName))  -- unreachable: index came from the scan
      | some col =>
        match validateValue value col with
        | .error e => (row, some e)
        | .ok _ => applyUpdates schema { values := row.values.set colIndex.toNat value } rest

/-- The row loop of `UpdateRows`: rows are processed in order; a matching row
is updated in place; on the first error the call stops, keeping every
mutation already applied, and reports the count of rows fully updated
before the failure. -/
def updateRowsGo (schema : Schema) (condition : Option (Row → Bool))
    (updates : List (String × Value)) : List Row → List Row × Nat × Option DBErr
  | [] => ([], 0, none)
  | r :: rest =>
    if condition.elim true (fun c => c r) then
      match applyUpdates schema r updates with
      | (r', some e) => (r' :: rest, 0, some e)
      | (r', none) =>
        let (rest', count, err) := updateRowsGo schema condition updates rest
        (r' :: rest', count + 1, err)
    else
      let (rest', count, err) := updateRowsGo schema condition updates rest
      (r :: rest', count, err)

/-- `Table.UpdateRows`: returns the table after the call (including the
partial mutations a failing call leaves behind), the matched-row count, and
the error if any. -/
def Table.updateRows (t : Table) (condition : Option (Row → Bool))
    (updates : List (String × Value)) : Table × Nat × Option DBErr :=
  let (rows', count, err) := updateRowsGo t.schema condition updates t.rows
  ({ t with rows := rows' }, count, err)

/-- `Table.DeleteRows`: with no condition every row is removed; otherwise the
row sequence is rebuilt retaining the rows on which the condition is false. -/
def Table.deleteRows (t : Table) (condition : Option (Row → Bool)) : Table × Nat :=
  match condition with
  | none => ({ t with rows := [] }, t.rows.length)
  | some cond =>
    ({ t with rows := t.rows.filter (fun r => !cond r) },
     (t.rows.filter (fun r => cond r)).length)

/-! ### Execution engine (`pkg/executor`) -/

/-- `pkg/parser` expression tree: `Identifier`, `Literal`, `NullLiteral`,
`BinaryExpr`. -/
inductive Expression where
  | ident (value : String)
  | lit (value : Value)
  | nullLit
  | binary (left : Expression) (operator : String) (right : Expression)
deriving DecidableEq, Repr

/-- `UpdateStmt`: table name, SET assignments (`map[string]Expression` in Go,
modelled as one admissible iteration order), optional WHERE tree. -/
structure UpdateStmt where
  tableName : String
  set : List (String × Expression)
  whereExpr : Option Expression

/-- `DeleteStmt`. -/
structure DeleteStmt where
  tableName : String
  whereExpr : Option Expression

/-- `executor.Result`, restricted to the fields the modelled statements
produce (formatting strings are presentation-layer). -/
structure ExecResult where
  rowsAffected : Nat
deriving DecidableEq, Repr

/-- `lessThan`: defined for int/int, float/float, string/string operand pairs,
error (`cannot compare %T and %T`) for every other combination, booleans and
nulls included. -/
def lessThan (left right : Value) : Except DBErr Bool :=
  match left, right with
  | .int l, .int r => .ok (l < r)
  | .float l, .float r => .ok (l < r)
  | .str l, .str r => .ok (l < r)
  | _, _ => .error .cannotCompare

/-- `greaterThan`: same shape as `lessThan`. -/
def greaterThan (left right : Value) : Except DBErr Bool :=
  match left, right with
  | .int l, .int r => .ok (l > r)
  | .float l, .float r => .ok (l > r)
  | .str l, .str r => .ok (l > r)
  | _, _ => .error .cannotCompare

/-- `lessThanOrEqual`: returns true when `lessThan` succeeds with true, and
otherwise falls back to Go `==` — swallowing any `lessThan` error. -/
def lessThanOrEqual (left right : Value) : Except DBErr Bool :=
  match lessThan left right with
  | .ok true => .ok true
  | _ => .ok (valueEq left right)

/-- `greaterThanOrEqual`: same shape as `lessThanOrEqual`. -/
def greaterThanOrEqual (left right : Value) : Except DBErr Bool :=
  match greaterThan left right with
  | .ok true => .ok true
  | _ => .ok (valueEq left right)

/-- `compareValues`: null short-circuit first (`=` compares with Go `==`, any
other operator yields false with no error), then dispatch on the operator. -/
def compareValues (left right : Value) (operator : String) : Except DBErr Bool :=
  if left = Value.null ∨ right = Value.null then
    if operator = "=" then .ok (valueEq left right)
    else .ok false
  else
    match operator with
    | "=" => .ok (valueEq left right)
    | "!=" => .ok (!valueEq left right)
    | "<" => lessThan left right
    | ">" => greaterThan left right
    | "<=" => lessThanOrEqual left right
    | ">=" => greaterThanOrEqual left right
    | op => .error (.unsupportedOperator op)

/-- `getColumnValue`: identifier lookup in the schema (row value at the found
index), literal and null pass-throughs, anything else unsupported. -/
def getColumnValue (expr : Expression) (row : Row) (schema : Schema) :
    Except DBErr Value :=
  match expr with
  | .ident name =>
    let idx := schema.getColumnIndex name
    if idx = -1 then .error (.columnNotFound name)
    else .ok (row.values.getD idx.toNat Value.null)  -- row.Values[idx]
  | .lit v => .ok v
  | .nullLit => .ok Value.null
  | .binary _ _ _ => .error .unsupportedExprInCondition

/-- `evaluateCondition`: only binary expressions are conditions; evaluate both
operands, then compare. -/
def evaluateCondition (expr : Expression) (row : Row) (schema : Schema) :
    Except DBErr Bool :=
  match expr with
  | .binary l op r => do
    let lv ← getColumnValue l row schema
    let rv ← getColumnValue r row schema
    compareValues lv rv op
  | _ => .error .unsupportedCondition

/-- The WHERE closure built inside `executeUpdate`/`executeDelete`: evaluation
errors are mapped to `false` (the row is treated as non-matching). -/
def buildCondition (whereExpr : Expression) (schema : Schema) : Row → Bool :=
  fun row =>
    match evaluateCondition whereExpr row schema with
    | .ok m => m
    | .error _ => false

/-- `evaluateExpression` with a nil row, as called from the executor for
INSERT values and UPDATE SET right-hand sides: literals and NULL evaluate,
identifiers and binary expressions are errors. -/
def evaluateExpression (expr : Expression) : Except DBErr Value :=
  match expr with
  | .lit v => .ok v
  | .nullLit => .ok Value.null
  | .ident _ => .error .identWithoutRow
  | .binary _ _ _ => .error .binaryInValues

/-- The SET evaluation loop of `executeUpdate`, producing the concrete
update map handed to `Table.UpdateRows`. -/
def evalSetList : List (String × Expression) → Except DBErr (List (String × Value))
  | [] => .ok []
  | (colName, expr) :: rest => do
    let v ← evaluateExpression expr
    let vs ← evalSetList rest
    .ok ((colName, v) :: vs)

/-- Association-list update used to model writes to Go maps. -/
def assocSet {α : Type} (l : List (String × α)) (k : String) (v : α) :
    List (String × α) :=
  match l with
  | [] => [(k, v)]
  | (k', v') :: rest => if k' = k then (k, v) :: rest else (k', v') :: assocSet rest k v

/-- Association-list deletion used to model `delete(m, k)`. -/
def assocDel {α : Type} (l : List (String × α)) (k : String) : List (String × α) :=
  l.filter (fun p => p.1 ≠ k)

/-- The table map of the storage engine, as seen by the executor: enough of
`Storage` for UPDATE/DELETE (persistence is modelled as succeeding; its
I/O failure modes are outside the embedding). -/
structure TableMap where
  tables : List (String × Table)

/-- `executeUpdate`: resolve the table, build the WHERE closure, evaluate the
SET expressions, run `UpdateRows` (whose partial mutations persist even when
it reports an error, since the table is updated in place), persist, report. -/
def executeUpdate (s : TableMap) (stmt : UpdateStmt) :
    TableMap × Except DBErr ExecResult :=
  match s.tables.lookup stmt.tableName with
  | none => (s, .error (.tableNotFound stmt.tableName))
  | some table =>
    let condition : Option (Row → Bool) :=
      stmt.whereExpr.map (fun w => buildCondition w table.schema)
    match evalSetList stmt.set with
    | .error e => (s, .error e)
    | .ok updates =>
      let (table', count, err) := table.updateRows condition updates
      let s' : TableMap := { tables := assocSet s.tables stmt.tableName table' }
      match err with
      | some e => (s', .error e)
      | none => (s', .ok { rowsAffected := count })

/-- `executeDelete`: resolve the table, build the WHERE closure, run
`DeleteRows` (which cannot fail), persist, report. -/
def executeDelete (s : TableMap) (stmt : DeleteStmt) :
    TableMap × Except DBErr ExecResult :=
  match s.tables.lookup stmt.tableName with
  | none => (s, .error (.tableNotFound stmt.tableName))
  | some table =>
    let condition : Option (Row → Bool) :=
      stmt.whereExpr.map (fun w => buildCondition w table.schema)
    let (table', count) := table.deleteRows condition
    ({ tables := assocSet s.tables stmt.tableName table' }, .ok { rowsAffected := count })

/-! ### B-tree index (`pkg/index/btree.go`) -/

/-- `compare`: typed three-way comparison for int/int, string/string and
float/float pairs. Every other combination — including booleans and the nil
interface, which have no `case` arm — falls through to the final
`return 0`, i.e. is silently treated as equal. -/
def goCompare : Value → Value → Int
  | .int a, .int b => if a < b then -1 else if a > b then 1 else 0
  | .str a, .str b => if a < b then -1 else if a > b then 1 else 0
  | .float a, .float b => if a < b then -1 else if a > b then 1 else 0
  | _, _ => 0

/-- `BTreeNode`: keys, row positions, children, leaf flag. -/
inductive BNode where
  | mk (keys : List Value) (values : List Int) (children : List BNode) (isLeaf : Bool)

/-- The `keys` field. -/
def BNode.keys : BNode → List Value
  | .mk ks _ _ _ => ks

/-- The `values` field. -/
def BNode.values : BNode → List Int
  | .mk _ vs _ _ => vs

/-- The `children` field. -/
def BNode.children : BNode → List BNode
  | .mk _ _ cs _ => cs

/-- The `isLeaf` field. -/
def BNode.isLeaf : BNode → Bool
  | .mk _ _ _ l => l

/-- `btreeOrder`: the fixed minimum degree. -/
def btreeOrder : Nat := 4

/-- `NewBTree`'s root: an empty leaf. -/
def emptyBNode : BNode := .mk [] [] [] true

/-- The scan loop shared by `searchNode` and `deleteNode`
(`i := 0; for i < len(keys) && compare(key, keys[i]) > 0 { i++ }`):
the length of the longest prefix of keys on which `compare key _` is
positive. -/
def lowerIdx (key : Value) (ks : List Value) : Nat :=
  (ks.takeWhile (fun x => 0 < goCompare key x)).length

/-- The scan loop of `insertNonFull`
(`i := len(keys)-1; for i >= 0 && compare(key, keys[i]) < 0 { i-- }; i++`):
the position after the last key on which `compare key _` is non-negative,
computed as the length minus the matching suffix length. -/
def insPos (key : Value) (ks : List Value) : Nat :=
  ks.length - (ks.reverse.takeWhile (fun x => goCompare key x < 0)).length

/-- Net effect of the Go append-then-shift idiom: insert an element at a
position of a list. -/
def insertAt {α : Type} (n : Nat) (a : α) (l : List α) : List α :=
  l.take n ++ a :: l.drop n

/-- The scan loop of `searchNode` at a leaf: stop at the first key not below
the target; found on equality, otherwise not found (`node.isLeaf` case of the
source). -/
def searchLeaf : List (Value × Int) → Value → Int × Bool
  | [], _ => (-1, false)
  | (k0, v0) :: es, key =>
    if 0 < goCompare key k0 then searchLeaf es key
    else if goCompare key k0 = 0 then (v0, true)
    else (-1, false)

mutual
/-- `searchNode`: scan the node's keys for the first key not below the target
(found on equality), return not-found at a leaf, otherwise descend into the
child at the stop position. The key/value pairs and the children list are
walked in lockstep, which matches the source's index arithmetic whenever
`len(values) = len(keys)` and (for internal nodes)
`len(children) = len(keys)+1`; where the source would panic on malformed
nodes, the walk returns not-found. -/
def searchNode : BNode → Value → Int × Bool
  | .mk ks vs cs isLeaf, key =>
    if isLeaf then searchLeaf (ks.zip vs) key
    else searchInternal cs (ks.zip vs) key

/-- The scan loop of `searchNode` at an internal node (see `searchNode`). -/
def searchInternal : List BNode → List (Value × Int) → Value → Int × Bool
  | [], _, _ => (-1, false)  -- source would index past `children`; malformed node
  | c :: _, [], key => searchNode c key
  | c :: cs, (k0, v0) :: es, key =>
    if 0 < goCompare key k0 then searchInternal cs es key
    else if goCompare key k0 = 0 then (v0, true)
    else searchNode c key
end

/-- `splitChild`: split the full child at `index` around its median
(`mid = btreeOrder-1 = 3`): the left half keeps keys `[0,3)` (and children
`[0,4)` when internal), the right half gets keys `[4,7)` (and children
`[4,8)`), and the median key/value is inserted into the parent at `index`
with the new right node spliced in at `index+1`. -/
def splitChild (parent : BNode) (index : Nat) : BNode :=
  match parent with
  | .mk pk pv pc pleaf =>
    match pc.get? index with
    | none => parent  -- source would panic; unreachable on well-formed trees
    | some (.mk fk fv fc fleaf) =>
      let right : BNode :=
        .mk (fk.drop 4) (fv.drop 4) (if fleaf then [] else fc.drop 4) fleaf
      let left : BNode :=
        .mk (fk.take 3) (fv.take 3) (if fleaf then fc else fc.take 4) fleaf
      .mk (insertAt index (fk.getD 3 Value.null) pk)
          (insertAt index (fv.getD 3 0) pv)
          (insertAt (index + 1) right (pc.set index left)) pleaf

theorem sizeOf_take_le {α : Type} [SizeOf α] (l : List α) (n : Nat) :
    sizeOf (l.take n) ≤ sizeOf l := by
  induction l generalizing n with
  | nil => simp [List.take]
  | cons a t ih =>
    cases n with
    | zero => simp [List.take]; omega
    | succ m => simp only [List.take, List.cons.sizeOf_spec]; have := ih m; omega

theorem sizeOf_drop_le {α : Type} [SizeOf α] (l : List α) (n : Nat) :
    sizeOf (l.drop n) ≤ sizeOf l := by
  induction l generalizing n with
  | nil => simp [List.drop]
  | cons a t ih =>
    cases n with
    | zero => simp
    | succ m => simp only [List.drop, List.cons.sizeOf_spec]; have := ih m; omega

theorem mem_insertAt {α : Type} {a b : α} {n : Nat} {l : List α}
    (h : a ∈ insertAt n b l) : a = b ∨ a ∈ l := by
  unfold insertAt at h
  rcases List.mem_append.1 h with h1 | h2
  · exact Or.inr (List.mem_of_mem_take h1)
  · rcases List.mem_cons.1 h2 with h3 | h4
    · exact Or.inl h3
    · exact Or.inr (List.mem_of_mem_drop h4)

theorem sizeOf_mem_splitChild {pk : List Value} {pv : List Int} {pc cs' : List BNode}
    {pl leaf' : Bool} {ks' : List Value} {vs' : List Int} {i : Nat} {c' : BNode}
    (hp : splitChild (.mk pk pv pc pl) i = .mk ks' vs' cs' leaf')
    (hmem : c' ∈ cs') : sizeOf c' < 1 + sizeOf pk + sizeOf pv + sizeOf pc + sizeOf pl := by
  unfold splitChild at hp
  simp only at hp
  cases hget : pc.get? i with
  | none =>
    simp only [hget] at hp
    cases hp
    have := List.sizeOf_lt_of_mem hmem
    simp only [BNode.mk.sizeOf_spec] at *
    omega
  | some full =>
    cases full with
    | mk fk fv fc fleaf =>
      simp only [hget] at hp
      cases hp
      have hfullmem : (BNode.mk fk fv fc fleaf) ∈ pc := List.get?_mem hget
      have hfullsz : sizeOf (BNode.mk fk fv fc fleaf) < sizeOf pc :=
        List.sizeOf_lt_of_mem hfullmem
      simp only [BNode.mk.sizeOf_spec] at hfullsz
      rcases mem_insertAt hmem with rfl | hmem2
      · have h1 := sizeOf_drop_le fk 4
        have h2 := sizeOf_drop_le fv 4
        have h3 : sizeOf (if fleaf = true then ([] : List BNode) else fc.drop 4) ≤ sizeOf fc := by
          split
          · cases fc with
            | nil => exact le_rfl
            | cons a t => simp only [List.cons.sizeOf_spec, List.nil.sizeOf_spec]; omega
          · exact sizeOf_drop_le fc 4
        simp only [BNode.mk.sizeOf_spec]
        omega
      · rcases List.mem_or_eq_of_mem_set hmem2 with hmem3 | rfl
        · have := List.sizeOf_lt_of_mem hmem3
          omega
        · have h1 := sizeOf_take_le fk 3
          have h2 := sizeOf_take_le fv 3
          have h3 : sizeOf (if fleaf = true then fc else fc.take 4) ≤ sizeOf fc := by
            split
            · exact le_rfl
            · exact sizeOf_take_le fc 4
          simp only [BNode.mk.sizeOf_spec]
          omega

/-- `insertNonFull`: at a leaf, insert key and row position at the scan
position; at an internal node, find the scan position, pre-emptively split
the target child when it is full (≥ `2*btreeOrder-1 = 7` keys) and step
right past the promoted median when the key is above it, then recurse into
the target child, writing the updated child back in place. -/
def insertNonFull (node : BNode) (key : Value) (rowIndex : Int) : BNode :=
  match node with
  | .mk ks vs cs isLeaf =>
    if isLeaf then
      .mk (insertAt (insPos key ks) key ks) (insertAt (insPos key ks) rowIndex vs) cs isLeaf
    else
      let i := insPos key ks
      match hc : cs.get? i with
      | none => .mk ks vs cs isLeaf  -- source would panic; unreachable on well-formed trees
      | some c =>
        if 7 ≤ c.keys.length then
          match hp : splitChild (.mk ks vs cs isLeaf) i with
          | .mk ks' vs' cs' leaf' =>
            let i' := if 0 < goCompare key (ks'.getD i Value.null) then i + 1 else i
            match hc' : cs'.get? i' with
            | none => .mk ks' vs' cs' leaf'  -- source would panic; unreachable
            | some c' => .mk ks' vs' (cs'.set i' (insertNonFull c' key rowIndex)) leaf'
        else .mk ks vs (cs.set i (insertNonFull c key rowIndex)) isLeaf
  termination_by sizeOf node
  decreasing_by
  · have := sizeOf_mem_splitChild hp (List.get?_mem hc')
    simp only [BNode.mk.sizeOf_spec]
    omega
  · have := List.sizeOf_lt_of_mem (List.get?_mem hc)
    simp only [BNode.mk.sizeOf_spec]
    omega

/-- `BTree.Insert`: reject a key already present (full descent first), split
a full root (7 keys or more) under a fresh root, then insert into the
non-full root. -/
def btInsert (root : BNode) (key : Value) (rowIndex : Int) : Except DBErr BNode :=
  if (searchNode root key).2 then .error (.duplicateKey key)
  else if 7 ≤ root.keys.length then
    .ok (insertNonFull (splitChild (.mk [] [] [root] false) 0) key rowIndex)
  else .ok (insertNonFull root key rowIndex)

/-- `deleteNode`: scan for the key; remove it in place when found in a leaf;
when found in an internal node, do nothing but still report success (the
source's `we'll just mark as deleted`); otherwise recurse into the child at
the scan position, writing it back in place. -/
def deleteNode (node : BNode) (key : Value) : BNode × Bool :=
  match node with
  | .mk ks vs cs isLeaf =>
    let i := lowerIdx key ks
    if i < ks.length ∧ goCompare key (ks.getD i Value.null) = 0 then
      if isLeaf then (.mk (ks.eraseIdx i) (vs.eraseIdx i) cs isLeaf, true)
      else (.mk ks vs cs isLeaf, true)
    else if isLeaf then (.mk ks vs cs isLeaf, false)
    else
      match hc : cs.get? i with
      | none => (.mk ks vs cs isLeaf, false)  -- source would panic; unreachable
      | some c =>
        let (c', res) := deleteNode c key
        (.mk ks vs (cs.set i c') isLeaf, res)
  termination_by sizeOf node
  decreasing_by
  · have := List.sizeOf_lt_of_mem (List.get?_mem hc)
    simp only [BNode.mk.sizeOf_spec]
    omega

mutual
/-- `traverse`/`GetAll`: in-order traversal. For each key position, first the
subtree below it (when internal), then the key/value pair, and finally the
last child. As with `searchNode`, pairs and children are walked in lockstep,
matching the source's index loop on well-formed nodes. -/
def BNode.traverse : BNode → List (Value × Int)
  | .mk ks vs cs isLeaf => if isLeaf then ks.zip vs else travList cs (ks.zip vs)

/-- The traversal loop of `traverse` (see `traverse`). -/
def travList : List BNode → List (Value × Int) → List (Value × Int)
  | [], _ => []  -- source would index past `children`; malformed node
  | c :: _, [] => BNode.traverse c
  | c :: cs, e :: es => BNode.traverse c ++ e :: travList cs es
end

/-- `BTree.Delete` on the root node. -/
def btDelete (root : BNode) (key : Value) : BNode × Bool := deleteNode root key

/-- A sequence of index operations, as exercised against one `BTree`. -/
inductive BTreeOp where
  | insert (key : Value) (rowIndex : Int)
  | delete (key : Value)

/-- Apply a sequence of `Insert`/`Delete` calls to a root node; a rejected
insert (`duplicate key`) leaves the tree unchanged, exactly as the source
returns the error before mutating. -/
def applyOps : BNode → List BTreeOp → BNode
  | root, [] => root
  | root, .insert k v :: rest =>
    match btInsert root k v with
    | .ok root' => applyOps root' rest
    | .error _ => applyOps root rest
  | root, .delete k :: rest => applyOps (btDelete root k).1 rest

/-! ### Index manager (`pkg/index/manager.go`) and storage engine -/

/-- `index.Manager`: `tableName → columnName → BTree` (Go nested maps as
association lists; lookup semantics coincide, iteration order is unused). -/
structure Manager where
  indexes : List (String × List (String × BNode))

/-- `NewManager`. -/
def newManager : Manager := { indexes := [] }

/-- `Manager.CreateIndex`: materialise the table's inner map if absent, fail
with `index on %s.%s already exists` if the column already has a tree,
otherwise register a fresh empty tree. -/
def Manager.createIndex (m : Manager) (tableName columnName : String) :
    Manager × Option DBErr :=
  let inner := (m.indexes.lookup tableName).getD []
  match inner.lookup columnName with
  | some _ => (m, some (.indexExists tableName columnName))
  | none =>
    ({ indexes := assocSet m.indexes tableName (assocSet inner columnName emptyBNode) },
     none)

/-- `Manager.HasIndex`. -/
def Manager.hasIndex (m : Manager) (tableName columnName : String) : Bool :=
  (((m.indexes.lookup tableName).getD []).lookup columnName).isSome

/-- `Manager.Search`: `(-1, false)` when the table or column has no index,
otherwise the tree's search. -/
def Manager.search (m : Manager) (tableName columnName : String) (key : Value) :
    Int × Bool :=
  match m.indexes.lookup tableName with
  | none => (-1, false)
  | some inner =>
    match inner.lookup columnName with
    | some tree => searchNode tree key
    | none => (-1, false)

/-- `Manager.DropTableIndexes`: `delete(m.indexes, tableName)`. -/
def Manager.dropTableIndexes (m : Manager) (tableName : String) : Manager :=
  { indexes := assocDel m.indexes tableName }

/-- `storage.Storage`, without the I/O handle: the in-memory table map and
the index manager. -/
structure Storage where
  tables : List (String × Table)
  indexMgr : Manager

/-- The index-creation loop of `CreateTable`: one `CreateIndex` per
primary-key or unique column, aborting on the first error; trees created by
earlier iterations stay registered in the manager. -/
def createIndexLoop (mgr : Manager) (tableName : String) :
    List Column → Manager × Option DBErr
  | [] => (mgr, none)
  | col :: rest =>
    if col.primaryKey || col.unique then
      match mgr.createIndex tableName col.name with
      | (mgr', some e) => (mgr', some e)
      | (mgr', none) => createIndexLoop mgr' tableName rest
    else createIndexLoop mgr tableName rest

/-- `Storage.CreateTable`: fail if the name is taken; register an empty table;
create one tree per primary-key/unique column, deleting the table
registration (but not the already-created trees) on failure; persist (the
success path of `saveTable` — its I/O failure mode is outside the model,
and the rollback there likewise deletes only the table registration). -/
def Storage.createTable (s : Storage) (schema : Schema) : Storage × Option DBErr :=
  match s.tables.lookup schema.tableName with
  | some _ => (s, some (.tableExists schema.tableName))
  | none =>
    let table : Table := { schema := schema, rows := [] }
    let tables' := assocSet s.tables schema.tableName table
    match createIndexLoop s.indexMgr schema.tableName schema.columns with
    | (mgr', some e) =>
      ({ tables := assocDel tables' schema.tableName, indexMgr := mgr' }, some e)
    | (mgr', none) => ({ tables := tables', indexMgr := mgr' }, none)

/-- `Storage.TableExists`. -/
def Storage.tableExists (s : Storage) (tableName : String) : Bool :=
  (s.tables.lookup tableName).isSome

/-! ### Persistence (`saveTable` / `loadTable` / `loadTables`)

`saveTable` gob-encodes the schema and then the row sequence into the
table's file; `loadTable` decodes them back in the same order. The file
content is modelled as the encoded pair itself (gob round-trips these
records field-for-field), so encode/decode bracket to the identity; what
remains observable — and what the claims are about — is which parts of the
storage state the startup path reconstructs. -/

/-- The persisted file body: serialized schema followed by serialized rows. -/
structure SavedTable where
  schema : Schema
  rows : List Row

/-- `saveTable`: encode schema, then rows. -/
def saveTable (t : Table) : SavedTable := { schema := t.schema, rows := t.rows }

/-- `loadTable`: decode schema, then rows, and rebuild the in-memory table. -/
def loadTable (f : SavedTable) : Table := { schema := f.schema, rows := f.rows }

/-- The loop of `loadTables` as run by `NewStorage`: the table map is filled
from the persisted files; the index manager is the fresh `NewManager()` and
`loadTables` never touches it — no index is rebuilt from the loaded rows. -/
def newStorage (files : List (String × SavedTable)) : Storage :=
  { tables := files.map (fun p => (p.1, loadTable p.2)), indexMgr := newManager }

/-! ### Specification apparatus

Definitions below state the spec's properties over the embedded code; they
are the vocabulary of the theorems, not translations of further source. -/

/-- `GetAll`: the in-order entry list of the tree. -/
def getAll (root : BNode) : List (Value × Int) := BNode.traverse root

/-- Fold `BTree.Insert` over a list of integer keys with row positions,
propagating the first error. -/
def insertAll : BNode → List (Int × Int) → Except DBErr BNode
  | root, [] => .ok root
  | root, (k, v) :: rest =>
    match btInsert root (.int k) v with
    | .error e => .error e
    | .ok root' => insertAll root' rest

mutual
/-- Depths of all leaves of a tree (the root at depth 0). -/
def leafDepths : BNode → List Nat
  | .mk _ _ _ true => [0]
  | .mk _ _ cs false => (leafDepthsList cs).map (· + 1)

/-- `leafDepths` over a forest of children. -/
def leafDepthsList : List BNode → List Nat
  | [] => []
  | c :: cs => leafDepths c ++ leafDepthsList cs
end

mutual
/-- All strict descendants of a node, i.e. every node of the tree except the
root. -/
def descendants : BNode → List BNode
  | .mk _ _ cs _ => cs ++ descendantsList cs

/-- `descendants` over a forest of children. -/
def descendantsList : List BNode → List BNode
  | [] => []
  | c :: cs => descendants c ++ descendantsList cs
end

/-- The spec's B-tree structural invariant, decidably: every leaf at equal
depth, and every non-root node holding between `btreeOrder-1` and
`2*btreeOrder-1` keys. -/
def structuralInvariantOK (root : BNode) : Bool :=
  ((leafDepths root).all (fun d => d = (leafDepths root).headD 0)) &&
  ((descendants root).all
    (fun n => decide (btreeOrder - 1 ≤ n.keys.length ∧ n.keys.length ≤ 2 * btreeOrder - 1)))

/-- The key sequence of a tree, in traversal order. -/
def keyList (n : BNode) : List Value := (BNode.traverse n).map Prod.fst

/-- `v` is an integer-typed value. -/
def IsIntV (v : Value) : Prop := ∃ m, v = Value.int m

/-- Strict key order as computed by the source's `compare`. -/
def vlt (a b : Value) : Prop := goCompare a b < 0

/-- Structural well-formedness of the trees reachable through the source's
`Insert`: values and keys aligned, at most `2*btreeOrder-1` keys per node,
leaves childless, internal nodes with one more child than keys. -/
inductive WFNode : BNode → Prop where
  | leaf : ∀ ks vs, vs.length = ks.length → ks.length ≤ 7 →
      WFNode (.mk ks vs [] true)
  | internal : ∀ ks vs cs, vs.length = ks.length → ks.length ≤ 7 →
      cs.length = ks.length + 1 → (∀ c ∈ cs, WFNode c) →
      WFNode (.mk ks vs cs false)

/-- The full invariant used for the B-tree correctness proof: structural
well-formedness, strictly ordered traversal, and integer-typed keys. -/
def GoodTree (n : BNode) : Prop :=
  WFNode n ∧ (keyList n).Pairwise vlt ∧ ∀ k ∈ keyList n, IsIntV k

/-- A duplicate-key constraint error of `InsertRow` (either uniqueness scan). -/
def IsDupErr (e : DBErr) : Prop :=
  (∃ v, e = .dupPrimaryKey v) ∨ (∃ c v, e = .dupUniqueKey c v)

/-- Some existing row agrees with the candidate on a primary-key column under
Go `==` (the comparison the source's primary-key scan performs — note it does
not skip nulls). -/
def PkClash (t : Table) (row : Row) : Prop :=
  ∃ pk ∈ t.schema.primaryKeys,
    t.schema.getColumnIndex pk ≠ -1 ∧
    ∃ er ∈ t.rows,
      er.values.getD (t.schema.getColumnIndex pk).toNat Value.null
        = row.values.getD (t.schema.getColumnIndex pk).toNat Value.null

/-- The candidate holds a non-null value in a unique column equal to some
existing row's value there. -/
def UniqueClash (t : Table) (row : Row) : Prop :=
  ∃ uq ∈ t.schema.uniqueKeys,
    t.schema.getColumnIndex uq ≠ -1 ∧
    row.values.getD (t.schema.getColumnIndex uq).toNat Value.null ≠ Value.null ∧
    ∃ er ∈ t.rows,
      er.values.getD (t.schema.getColumnIndex uq).toNat Value.null
        = row.values.getD (t.schema.getColumnIndex uq).toNat Value.null

/-- The fully interleaved prefix of an in-order traversal: for each of the
first `i` key positions, the subtree below it followed by the key/value
entry. `travList cs es` decomposes as `travPre (cs.take i) (es.take i)`
followed by the traversal of the remaining children and entries. -/
def travPre (cs : List BNode) (es : List (Value × Int)) : List (Value × Int) :=
  (List.zipWith (fun c e => BNode.traverse c ++ [e]) cs es).join

/-- Decidable equality for `Except`, for evaluating concrete results. -/
instance {ε α : Type} [DecidableEq ε] [DecidableEq α] : DecidableEq (Except ε α) := by
  intro a b
  cases a with
  | error e => cases b with
    | error f => exact decidable_of_iff (e = f) (by constructor <;> (intro h; first | exact congrArg _ h | injection h))
    | ok y => exact isFalse (by intro h; injection h)
  | ok x => cases b with
    | error f => exact isFalse (by intro h; injection h)
    | ok y => exact decidable_of_iff (x = y) (by constructor <;> (intro h; first | exact congrArg _ h | injection h))

/-! ### Claims -/

/-- C10: `Row.Get` returns null for every index outside `[0, len(values))`,
and `Row.Set` with an out-of-range index leaves the row unchanged; neither
operation can fail for any index (both are total functions). -/
theorem row_accessors_total (r : Row) (i : Int) (v : Value)
    (h : i < 0 ∨ (r.values.length : Int) ≤ i) :
    r.get i = Value.null ∧ r.set i v = r := by
  refine ⟨?_, ?_⟩
  · unfold Row.get
    rw [if_pos h]
  · unfold Row.set
    rw [if_neg (by omega)]

/-- Witness for C10 at a concrete out-of-range index. -/
theorem row_accessors_total_witness :
    ((2 : Int) < 0 ∨ (((newRow [Value.int 7]).values.length : Int) ≤ 2)) ∧
    ((newRow [Value.int 7]).get 2 = Value.null ∧
      (newRow [Value.int 7]).set 2 (Value.int 5) = newRow [Value.int 7]) :=
  ⟨Or.inr (by decide), row_accessors_total (newRow [Value.int 7]) 2 (Value.int 5)
    (Or.inr (by decide))⟩

/-- C8: when at least one operand is null, `compareValues` under `=` yields
true exactly when both operands are null and yields false without error
otherwise (null against a non-null value), and yields false without error
under every other operator in `{!=, <, >, <=, >=}`. -/
theorem compare_values_null_semantics (l r : Value) (op : String)
    (h : l = Value.null ∨ r = Value.null) :
    (compareValues l r "=" = .ok true ↔ (l = Value.null ∧ r = Value.null)) ∧
    (¬ (l = Value.null ∧ r = Value.null) → compareValues l r "=" = .ok false) ∧
    (op ∈ ["!=", "<", ">", "<=", ">="] → compareValues l r op = .ok false) := by
  refine ⟨?_, ?_, ?_⟩
  · unfold compareValues
    rw [if_pos h, if_pos rfl]
    constructor
    · intro he
      have hb : valueEq l r = true := by
        injection he
      have : l = r := by
        unfold valueEq at hb
        exact of_decide_eq_true hb
      rcases h with rfl | rfl
      · exact ⟨rfl, this.symm⟩
      · exact ⟨this, rfl⟩
    · rintro ⟨rfl, rfl⟩
      rfl
  · intro hne
    unfold compareValues
    rw [if_pos h, if_pos rfl]
    have hlr : l ≠ r := by
      rcases h with rfl | rfl
      · intro hc
        exact hne ⟨rfl, hc.symm⟩
      · intro hc
        exact hne ⟨hc, rfl⟩
    unfold valueEq
    rw [decide_eq_false hlr]
  · intro hop
    unfold compareValues
    rw [if_pos h]
    simp only [List.mem_cons, List.not_mem_nil, or_false] at hop
    rcases hop with rfl | rfl | rfl | rfl | rfl <;> rw [if_neg (by decide)]

/-- Witness for C8 at concrete operands. -/
theorem compare_values_null_semantics_witness :
    ((Value.null = Value.null ∨ Value.int 3 = Value.null) ∧
      (compareValues Value.null (Value.int 3) "=" = .ok true ↔
        (Value.null = Value.null ∧ Value.int 3 = Value.null)) ∧
      (¬ (Value.null = Value.null ∧ Value.int 3 = Value.null) →
        compareValues Value.null (Value.int 3) "=" = .ok false) ∧
      ("<" ∈ ["!=", "<", ">", "<=", ">="] →
        compareValues Value.null (Value.int 3) "<" = .ok false)) :=
  ⟨Or.inl rfl, compare_values_null_semantics Value.null (Value.int 3) "<" (Or.inl rfl)⟩

/-- C3 (refuting the claim at concrete inputs): the B-tree `compare` silently
returns 0 — "equal" — for an integer/text pair and for a boolean pair, and
`compareValues` on an integer/text pair silently yields a boolean for `=`,
`!=`, `<=` and `>=` (the `<=`/`>=` helpers swallow the comparison error and
fall back to Go `==`); only `<` and `>` surface the incomparability error. -/
theorem cross_type_comparison_is_silent :
    goCompare (Value.int 1) (Value.str "a") = 0 ∧
    goCompare (Value.bool true) (Value.bool false) = 0 ∧
    goCompare (Value.int 1) (Value.float 1) = 0 ∧
    compareValues (Value.int 1) (Value.str "a") "=" = .ok false ∧
    compareValues (Value.int 1) (Value.str "a") "!=" = .ok true ∧
    compareValues (Value.int 1) (Value.str "a") "<=" = .ok false ∧
    compareValues (Value.int 1) (Value.str "a") ">=" = .ok false ∧
    compareValues (Value.int 1) (Value.str "a") "<" = .error .cannotCompare ∧
    compareValues (Value.int 1) (Value.str "a") ">" = .error .cannotCompare := by
  decide

/-- C1 (refuting the claim at a concrete input): `UpdateRows` validates and
applies the assignments of one matching row as it iterates, so with one valid
assignment listed before an invalid one the call fails *and* the first
assignment is already applied: the row sequence after the failing call
differs from the sequence before it. -/
theorem update_rows_partial_mutation :
    (Table.updateRows
        { schema :=
            { tableName := "t"
              columns :=
                [{ name := "a", dataType := .integer, size := 0,
                   primaryKey := false, unique := false, notNull := false },
                 { name := "b", dataType := .integer, size := 0,
                   primaryKey := false, unique := false, notNull := false }]
              primaryKeys := [], uniqueKeys := [] }
          rows := [newRow [Value.int 1, Value.int 2]] }
        none
        [("a", Value.int 5), ("b", Value.str "x")]).2.2 = some (.typeMismatch "b") ∧
    (Table.updateRows
        { schema :=
            { tableName := "t"
              columns :=
                [{ name := "a", dataType := .integer, size := 0,
                   primaryKey := false, unique := false, notNull := false },
                 { name := "b", dataType := .integer, size := 0,
                   primaryKey := false, unique := false, notNull := false }]
              primaryKeys := [], uniqueKeys := [] }
          rows := [newRow [Value.int 1, Value.int 2]] }
        none
        [("a", Value.int 5), ("b", Value.str "x")]).1.rows
      = [newRow [Value.int 5, Value.int 2]] := by
  decide

/-- C7 (refuting the claim at a concrete input): the WHERE closure built by
`executeUpdate`/`executeDelete` maps predicate-evaluation errors to `false`,
so an UPDATE and a DELETE whose WHERE comparison fails with the
incomparable-types error on the table's row complete successfully with zero
matched rows instead of returning the error. -/
theorem executor_swallows_where_error :
    evaluateCondition (.binary (.ident "id") "<" (.lit (.str "a")))
        (newRow [Value.int 1])
        { tableName := "t"
          columns := [{ name := "id", dataType := .integer, size := 0,
                        primaryKey := false, unique := false, notNull := false }]
          primaryKeys := [], uniqueKeys := [] } = .error .cannotCompare ∧
    (executeUpdate
        { tables := [("t",
            { schema :=
                { tableName := "t"
                  columns := [{ name := "id", dataType := .integer, size := 0,
                                primaryKey := false, unique := false, notNull := false }]
                  primaryKeys := [], uniqueKeys := [] }
              rows := [newRow [Value.int 1]] })] }
        { tableName := "t"
          set := [("id", .lit (.int 2))]
          whereExpr := some (.binary (.ident "id") "<" (.lit (.str "a"))) }).2
      = .ok { rowsAffected := 0 } ∧
    (executeDelete
        { tables := [("t",
            { schema :=
                { tableName := "t"
                  columns := [{ name := "id", dataType := .integer, size := 0,
                                primaryKey := false, unique := false, notNull := false }]
                  primaryKeys := [], uniqueKeys := [] }
              rows := [newRow [Value.int 1]] })] }
        { tableName := "t"
          whereExpr := some (.binary (.ident "id") "<" (.lit (.str "a"))) }).2
      = .ok { rowsAffected := 0 } := by
  decide

/-- C7 as amended: a row on which WHERE evaluation fails is treated as
non-matching — the closure handed to `UpdateRows`/`DeleteRows` returns
`false` whenever `evaluateCondition` returns an error, so Update/Delete
complete without forwarding predicate-evaluation errors. -/
theorem where_error_treated_as_no_match (w : Expression) (schema : Schema)
    (row : Row) (e : DBErr) (h : evaluateCondition w row schema = .error e) :
    buildCondition w schema row = false := by
  unfold buildCondition
  rw [h]

/-- Witness for the amended C7 at a concrete failing predicate. -/
theorem where_error_treated_as_no_match_witness :
    (evaluateCondition (.binary (.ident "c") "<" (.lit (.str "a")))
        (newRow [Value.int 1])
        { tableName := "u"
          columns := [{ name := "c", dataType := .integer, size := 0,
                        primaryKey := false, unique := false, notNull := false }]
          primaryKeys := [], uniqueKeys := [] } = .error .cannotCompare) ∧
    buildCondition (.binary (.ident "c") "<" (.lit (.str "a")))
        { tableName := "u"
          columns := [{ name := "c", dataType := .integer, size := 0,
                        primaryKey := false, unique := false, notNull := false }]
          primaryKeys := [], uniqueKeys := [] }
        (newRow [Value.int 1]) = false :=
  ⟨by decide,
    where_error_treated_as_no_match _ _ _ DBErr.cannotCompare (by decide)⟩

/-- C6 (refuting the claim at a concrete input): after persisting a table
with a primary-key column and one row and reloading it at startup, the index
manager holds no index for the table — `HasIndex` is false and `Search` over
the manager reports not-found for the loaded row's key — because
`loadTables` fills only the table map and never touches the fresh manager. -/
theorem startup_leaves_indexes_empty :
    (newStorage [("t", saveTable
        { schema :=
            { tableName := "t"
              columns := [{ name := "id", dataType := .integer, size := 0,
                            primaryKey := true, unique := false, notNull := false }]
              primaryKeys := ["id"], uniqueKeys := [] }
          rows := [newRow [Value.int 1]] })]).indexMgr.hasIndex "t" "id" = false ∧
    (newStorage [("t", saveTable
        { schema :=
            { tableName := "t"
              columns := [{ name := "id", dataType := .integer, size := 0,
                            primaryKey := true, unique := false, notNull := false }]
              primaryKeys := ["id"], uniqueKeys := [] }
          rows := [newRow [Value.int 1]] })]).indexMgr.search "t" "id" (Value.int 1)
      = (-1, false) ∧
    (((newStorage [("t", saveTable
        { schema :=
            { tableName := "t"
              columns := [{ name := "id", dataType := .integer, size := 0,
                            primaryKey := true, unique := false, notNull := false }]
              primaryKeys := ["id"], uniqueKeys := [] }
          rows := [newRow [Value.int 1]] })]).tables.lookup "t").map Table.rows)
      = some [newRow [Value.int 1]] := by
  refine ⟨rfl, rfl, rfl⟩

/-- C6 as amended: persisting then reloading preserves the schema and row
sequence exactly, and the startup path reconstructs only the table map — the
index manager after `NewStorage` is the fresh empty manager, with no index
rebuilt from the loaded rows. -/
theorem save_load_round_trip (t : Table) (files : List (String × SavedTable)) :
    loadTable (saveTable t) = t ∧
    (newStorage files).indexMgr = newManager ∧
    (newStorage files).tables = files.map (fun p => (p.1, loadTable p.2)) := by
  refine ⟨?_, rfl, rfl⟩
  cases t
  rfl

/-- Keys absent from a lookup are absent from the list. -/
theorem lookup_none_forall {α : Type} {l : List (String × α)} {k : String}
    (h : l.lookup k = none) : ∀ p ∈ l, p.1 ≠ k := by
  induction l with
  | nil => intro p hp; cases hp
  | cons a rest ih =>
    obtain ⟨a1, a2⟩ := a
    simp only [List.lookup] at h
    cases hbeq : (k == a1) with
    | true => rw [hbeq] at h; cases h
    | false =>
      rw [hbeq] at h
      intro p hp
      rcases List.mem_cons.1 hp with rfl | hmem
      · intro hcon
        have hcon' : a1 = k := hcon
        rw [hcon'] at hbeq
        simp at hbeq
      · exact ih h p hmem

/-- `assocSet` on an absent key appends the binding. -/
theorem assocSet_absent {α : Type} {l : List (String × α)} {k : String} (v : α)
    (h : ∀ p ∈ l, p.1 ≠ k) : assocSet l k v = l ++ [(k, v)] := by
  induction l with
  | nil => rfl
  | cons a rest ih =>
    unfold assocSet
    rw [if_neg (h a (List.mem_cons_self a rest))]
    rw [ih (fun p hp => h p (List.mem_cons_of_mem a hp))]
    rfl

/-- `assocDel` removes nothing when the key is absent. -/
theorem assocDel_absent {α : Type} {l : List (String × α)} {k : String}
    (h : ∀ p ∈ l, p.1 ≠ k) : assocDel l k = l := by
  unfold assocDel
  apply List.filter_eq_self.2
  intro p hp
  exact decide_eq_true (h p hp)

/-- C9 as amended: any failing `CreateTable` (name already taken, index
creation, or the modelled persistence step) leaves the table map exactly as
it was before the call — the in-memory table registration is rolled back —
while index-manager entries created before the failure are not removed. -/
theorem create_table_failure_rolls_back_tables (s : Storage) (schema : Schema)
    (s' : Storage) (e : DBErr) (h : s.createTable schema = (s', some e)) :
    s'.tables = s.tables := by
  unfold Storage.createTable at h
  cases hl : s.tables.lookup schema.tableName with
  | some t =>
    rw [hl] at h
    cases h
    rfl
  | none =>
    rw [hl] at h
    simp only at h
    have habs := lookup_none_forall hl
    cases hloop : createIndexLoop s.indexMgr schema.tableName schema.columns with
    | mk mgr' err =>
      cases err with
      | none => rw [hloop] at h; cases h
      | some e' =>
        rw [hloop] at h
        cases h
        show assocDel (assocSet s.tables schema.tableName _) schema.tableName = s.tables
        rw [assocSet_absent _ habs]
        unfold assocDel
        rw [List.filter_append]
        have h2 : List.filter (fun p => decide (p.1 ≠ schema.tableName))
            [(schema.tableName, ({ schema := schema, rows := [] } : Table))] = [] := by
          simp [List.filter]
        rw [h2, List.append_nil]
        exact assocDel_absent habs

/-- Witness for the amended C9: a schema carrying the same primary-key column
twice makes the second `CreateIndex` fail with the already-exists error; the
table map is rolled back to empty while the index created by the first
iteration stays registered. -/
theorem create_table_failure_rolls_back_tables_witness :
    (Storage.createTable { tables := [], indexMgr := newManager }
        (((newSchema "t").addColumn
            { name := "a", dataType := .integer, size := 0,
              primaryKey := true, unique := false, notNull := false }).addColumn
            { name := "a", dataType := .integer, size := 0,
              primaryKey := true, unique := false, notNull := false })
      = ({ tables := [],
           indexMgr := { indexes := [("t", [("a", emptyBNode)])] } },
         some (.indexExists "t" "a"))) ∧
    ({ tables := [],
       indexMgr := { indexes := [("t", [("a", emptyBNode)])] } } : Storage).tables
      = ({ tables := [], indexMgr := newManager } : Storage).tables :=
  ⟨by rfl,
    create_table_failure_rolls_back_tables { tables := [], indexMgr := newManager }
      (((newSchema "t").addColumn
          { name := "a", dataType := .integer, size := 0,
            primaryKey := true, unique := false, notNull := false }).addColumn
          { name := "a", dataType := .integer, size := 0,
            primaryKey := true, unique := false, notNull := false })
      { tables := [],
        indexMgr := { indexes := [("t", [("a", emptyBNode)])] } }
      (.indexExists "t" "a") (by rfl)⟩

/-- C9 (refuting the claim at a concrete input): when `CreateTable` fails
during index creation (second primary-key column with the same name), the
table registration is rolled back (`TableExists` is false) but the index
created for the first column remains registered in the manager —
contradicting "no index for any of the table's columns remains registered". -/
theorem create_table_failure_leaks_index :
    ((Storage.createTable { tables := [], indexMgr := newManager }
        (((newSchema "t").addColumn
            { name := "a", dataType := .integer, size := 0,
              primaryKey := true, unique := false, notNull := false }).addColumn
            { name := "a", dataType := .integer, size := 0,
              primaryKey := true, unique := false, notNull := false })).2
      = some (.indexExists "t" "a")) ∧
    ((Storage.createTable { tables := [], indexMgr := newManager }
        (((newSchema "t").addColumn
            { name := "a", dataType := .integer, size := 0,
              primaryKey := true, unique := false, notNull := false }).addColumn
            { name := "a", dataType := .integer, size := 0,
              primaryKey := true, unique := false, notNull := false })).1.tableExists "t"
      = false) ∧
    ((Storage.createTable { tables := [], indexMgr := newManager }
        (((newSchema "t").addColumn
            { name := "a", dataType := .integer, size := 0,
              primaryKey := true, unique := false, notNull := false }).addColumn
            { name := "a", dataType := .integer, size := 0,
              primaryKey := true, unique := false, notNull := false })).1.indexMgr.hasIndex
        "t" "a" = true) := by
  refine ⟨rfl, rfl, rfl⟩

/-- The primary-key scan fails exactly when some listed primary-key column
resolves and some existing row agrees with the candidate there under Go `==`. -/
theorem checkPrimaryKeys_error_iff (schema : Schema) (rows : List Row) (row : Row)
    (pks : List String) :
    (∃ e, checkPrimaryKeys schema rows row pks = .error e) ↔
      ∃ pk ∈ pks, schema.getColumnIndex pk ≠ -1 ∧
        ∃ er ∈ rows,
          er.values.getD (schema.getColumnIndex pk).toNat Value.null
            = row.values.getD (schema.getColumnIndex pk).toNat Value.null := by
  induction pks with
  | nil =>
    simp [checkPrimaryKeys]
  | cons pk rest ih =>
    unfold checkPrimaryKeys
    by_cases hidx : schema.getColumnIndex pk = -1
    · rw [if_pos hidx]
      rw [ih]
      constructor
      · intro ⟨q, hq, h1, h2⟩
        exact ⟨q, List.mem_cons_of_mem pk hq, h1, h2⟩
      · rintro ⟨q, hq, h1, h2⟩
        rcases List.mem_cons.1 hq with rfl | hq'
        · exact absurd hidx h1
        · exact ⟨q, hq', h1, h2⟩
    · rw [if_neg hidx]
      by_cases hany : rows.any (fun er =>
          valueEq (er.values.getD (schema.getColumnIndex pk).toNat Value.null)
            (row.values.getD (schema.getColumnIndex pk).toNat Value.null)) = true
      · rw [if_pos hany]
        constructor
        · intro _
          rcases List.any_eq_true.1 hany with ⟨er, her, heq⟩
          exact ⟨pk, List.mem_cons_self pk rest, hidx,
            er, her, of_decide_eq_true heq⟩
        · intro _
          exact ⟨_, rfl⟩
      · rw [if_neg hany]
        rw [ih]
        constructor
        · intro ⟨q, hq, h1, h2⟩
          exact ⟨q, List.mem_cons_of_mem pk hq, h1, h2⟩
        · rintro ⟨q, hq, h1, h2⟩
          rcases List.mem_cons.1 hq with rfl | hq'
          · exfalso
            apply hany
            rcases h2 with ⟨er, her, heq⟩
            exact List.any_eq_true.2 ⟨er, her, decide_eq_true heq⟩
          · exact ⟨q, hq', h1, h2⟩

/-- The unique-column scan fails exactly when some listed unique column
resolves, the candidate is non-null there, and some existing row agrees with
the candidate there under Go `==`. -/
theorem checkUniqueKeys_error_iff (schema : Schema) (rows : List Row) (row : Row)
    (uqs : List String) :
    (∃ e, checkUniqueKeys schema rows row uqs = .error e) ↔
      ∃ uq ∈ uqs, schema.getColumnIndex uq ≠ -1 ∧
        row.values.getD (schema.getColumnIndex uq).toNat Value.null ≠ Value.null ∧
        ∃ er ∈ rows,
          er.values.getD (schema.getColumnIndex uq).toNat Value.null
            = row.values.getD (schema.getColumnIndex uq).toNat Value.null := by
  induction uqs with
  | nil =>
    simp [checkUniqueKeys]
  | cons uq rest ih =>
    unfold checkUniqueKeys
    by_cases hidx : schema.getColumnIndex uq = -1
    · rw [if_pos hidx]
      rw [ih]
      constructor
      · intro ⟨q, hq, h1, h2⟩
        exact ⟨q, List.mem_cons_of_mem uq hq, h1, h2⟩
      · rintro ⟨q, hq, h1, h2⟩
        rcases List.mem_cons.1 hq with rfl | hq'
        · exact absurd hidx h1
        · exact ⟨q, hq', h1, h2⟩
    · rw [if_neg hidx]
      by_cases hnull : row.values.getD (schema.getColumnIndex uq).toNat Value.null
          = Value.null
      · rw [if_pos hnull]
        rw [ih]
        constructor
        · intro ⟨q, hq, h1, h2⟩
          exact ⟨q, List.mem_cons_of_mem uq hq, h1, h2⟩
        · rintro ⟨q, hq, h1, h2, h3⟩
          rcases List.mem_cons.1 hq with rfl | hq'
          · exact absurd hnull h2
          · exact ⟨q, hq', h1, h2, h3⟩
      · rw [if_neg hnull]
        by_cases hany : rows.any (fun er =>
            valueEq (er.values.getD (schema.getColumnIndex uq).toNat Value.null)
              (row.values.getD (schema.getColumnIndex uq).toNat Value.null)) = true
        · rw [if_pos hany]
          constructor
          · intro _
            rcases List.any_eq_true.1 hany with ⟨er, her, heq⟩
            exact ⟨uq, List.mem_cons_self uq rest, hidx, hnull,
              er, her, of_decide_eq_true heq⟩
          · intro _
            exact ⟨_, rfl⟩
        · rw [if_neg hany]
          rw [ih]
          constructor
          · intro ⟨q, hq, h1, h2⟩
            exact ⟨q, List.mem_cons_of_mem uq hq, h1, h2⟩
          · rintro ⟨q, hq, h1, h2, h3⟩
            rcases List.mem_cons.1 hq with rfl | hq'
            · exfalso
              apply hany
              rcases h3 with ⟨er, her, heq⟩
              exact List.any_eq_true.2 ⟨er, her, decide_eq_true heq⟩
            · exact ⟨q, hq', h1, h2, h3⟩

/-- Every error of the primary-key scan is a duplicate-primary-key error. -/
theorem checkPrimaryKeys_error_shape (schema : Schema) (rows : List Row) (row : Row)
    (pks : List String) (e : DBErr)
    (h : checkPrimaryKeys schema rows row pks = .error e) : ∃ v, e = .dupPrimaryKey v := by
  induction pks with
  | nil => cases h
  | cons pk rest ih =>
    unfold checkPrimaryKeys at h
    by_cases hidx : schema.getColumnIndex pk = -1
    · rw [if_pos hidx] at h
      exact ih h
    · rw [if_neg hidx] at h
      by_cases hany : rows.any (fun er =>
          valueEq (er.values.getD (schema.getColumnIndex pk).toNat Value.null)
            (row.values.getD (schema.getColumnIndex pk).toNat Value.null)) = true
      · rw [if_pos hany] at h
        injection h with h'
        exact ⟨_, h'.symm⟩
      · rw [if_neg hany] at h
        exact ih h

/-- Every error of the unique-column scan is a duplicate-unique-key error. -/
theorem checkUniqueKeys_error_shape (schema : Schema) (rows : List Row) (row : Row)
    (uqs : List String) (e : DBErr)
    (h : checkUniqueKeys schema rows row uqs = .error e) : ∃ c v, e = .dupUniqueKey c v := by
  induction uqs with
  | nil => cases h
  | cons uq rest ih =>
    unfold checkUniqueKeys at h
    by_cases hidx : schema.getColumnIndex uq = -1
    · rw [if_pos hidx] at h
      exact ih h
    · rw [if_neg hidx] at h
      by_cases hnull : row.values.getD (schema.getColumnIndex uq).toNat Value.null
          = Value.null
      · rw [if_pos hnull] at h
        exact ih h
      · rw [if_neg hnull] at h
        by_cases hany : rows.any (fun er =>
            valueEq (er.values.getD (schema.getColumnIndex uq).toNat Value.null)
              (row.values.getD (schema.getColumnIndex uq).toNat Value.null)) = true
        · rw [if_pos hany] at h
          injection h with h'
          exact ⟨_, _, h'.symm⟩
        · rw [if_neg hany] at h
          exact ih h

/-- C2 as amended: for a candidate of correct arity with valid per-column
values, `InsertRow` fails with a duplicate-key error exactly when some
existing row agrees with the candidate on a primary-key column under Go `==`
(nulls included: the primary-key scan does not skip nulls, so null collides
with null) or holds an equal non-null value in a unique column; on any
failure the table is unchanged, and on success exactly the candidate row is
appended. -/
theorem insert_row_duplicate_key_spec (t : Table) (row : Row)
    (ha : row.values.length = t.schema.columns.length)
    (hv : validateRowValues t.schema.columns row.values = .ok ()) :
    ((∃ e, (t.insertRow row).2 = some e ∧ IsDupErr e) ↔ (PkClash t row ∨ UniqueClash t row)) ∧
    ((t.insertRow row).2 ≠ none → (t.insertRow row).1 = t) ∧
    ((t.insertRow row).2 = none → (t.insertRow row).1.rows = t.rows ++ [row]) := by
  unfold Table.insertRow
  rw [if_neg (by omega)]
  rw [hv]
  simp only
  cases hpk : checkPrimaryKeys t.schema t.rows row t.schema.primaryKeys with
  | error e =>
    refine ⟨?_, ?_, ?_⟩
    · constructor
      · intro _
        exact Or.inl ((checkPrimaryKeys_error_iff t.schema t.rows row
          t.schema.primaryKeys).1 ⟨e, hpk⟩)
      · intro _
        exact ⟨e, rfl, Or.inl (checkPrimaryKeys_error_shape _ _ _ _ _ hpk)⟩
    · intro _; rfl
    · intro hc; cases hc
  | ok u =>
    cases u
    cases huq : checkUniqueKeys t.schema t.rows row t.schema.uniqueKeys with
    | error e =>
      refine ⟨?_, ?_, ?_⟩
      · constructor
        · intro _
          exact Or.inr ((checkUniqueKeys_error_iff t.schema t.rows row
            t.schema.uniqueKeys).1 ⟨e, huq⟩)
        · intro _
          exact ⟨e, rfl, Or.inr (checkUniqueKeys_error_shape _ _ _ _ _ huq)⟩
      · intro _; rfl
      · intro hc; cases hc
    | ok u =>
      cases u
      refine ⟨?_, ?_, ?_⟩
      · constructor
        · rintro ⟨e, he, _⟩; cases he
        · intro hclash
          rcases hclash with hc | hc
          · rcases (checkPrimaryKeys_error_iff t.schema t.rows row
              t.schema.primaryKeys).2 hc with ⟨e, he⟩
            rw [hpk] at he
            cases he
          · rcases (checkUniqueKeys_error_iff t.schema t.rows row
              t.schema.uniqueKeys).2 hc with ⟨e, he⟩
            rw [huq] at he
            cases he
      · intro hc; exact absurd rfl hc
      · intro _; rfl

/-- Witness for the amended C2 at a concrete duplicate primary-key insert. -/
theorem insert_row_duplicate_key_spec_witness :
    ((newRow [Value.int 1]).values.length =
      ({ schema := (newSchema "t").addColumn
            { name := "id", dataType := .integer, size := 0,
              primaryKey := true, unique := false, notNull := false }
         rows := [newRow [Value.int 1]] } : Table).schema.columns.length) ∧
    (validateRowValues
        ({ schema := (newSchema "t").addColumn
              { name := "id", dataType := .integer, size := 0,
                primaryKey := true, unique := false, notNull := false }
           rows := [newRow [Value.int 1]] } : Table).schema.columns
        (newRow [Value.int 1]).values = .ok ()) ∧
    ((∃ e, (Table.insertRow
        { schema := (newSchema "t").addColumn
            { name := "id", dataType := .integer, size := 0,
              primaryKey := true, unique := false, notNull := false }
          rows := [newRow [Value.int 1]] } (newRow [Value.int 1])).2 = some e ∧ IsDupErr e) ↔
      (PkClash
        { schema := (newSchema "t").addColumn
            { name := "id", dataType := .integer, size := 0,
              primaryKey := true, unique := false, notNull := false }
          rows := [newRow [Value.int 1]] } (newRow [Value.int 1]) ∨
       UniqueClash
        { schema := (newSchema "t").addColumn
            { name := "id", dataType := .integer, size := 0,
              primaryKey := true, unique := false, notNull := false }
          rows := [newRow [Value.int 1]] } (newRow [Value.int 1]))) :=
  ⟨by decide, by decide,
    (insert_row_duplicate_key_spec
      { schema := (newSchema "t").addColumn
          { name := "id", dataType := .integer, size := 0,
            primaryKey := true, unique := false, notNull := false }
        rows := [newRow [Value.int 1]] } (newRow [Value.int 1])
      (by decide) (by decide)).1⟩

/-- C2 (refuting the claim at a concrete input): with a nullable primary-key
column, inserting a null key into a table already holding a null key fails
with the duplicate-primary-key error, although no existing row holds an equal
*non-null* value — the primary-key scan compares with Go `==` and does not
skip nulls (the null skip exists only in the unique-column scan). -/
theorem insert_row_null_pk_duplicate :
    (validateRowValues
        ((newSchema "t").addColumn
          { name := "id", dataType := .integer, size := 0,
            primaryKey := true, unique := false, notNull := false }).columns
        [Value.null] = .ok ()) ∧
    (Table.insertRow
        { schema := (newSchema "t").addColumn
            { name := "id", dataType := .integer, size := 0,
              primaryKey := true, unique := false, notNull := false }
          rows := [newRow [Value.null]] }
        (newRow [Value.null])).2 = some (.dupPrimaryKey Value.null) := by
  decide

unseal insertNonFull deleteNode in
/-- C5 (refuting the claim at a concrete input): inserting the integer keys
1..8 into a fresh tree (minimum degree 4) splits the root into a 1-key root
over leaves [1,2,3] and [5,6,7,8] and satisfies the structural invariant;
deleting key 1 then removes it from its leaf with no rebalancing, leaving a
non-root leaf with 2 keys < `degree-1 = 3` — the invariant is violated. -/
theorem btree_delete_breaks_structural_invariant :
    structuralInvariantOK (applyOps emptyBNode
      [.insert (.int 1) 1, .insert (.int 2) 2, .insert (.int 3) 3, .insert (.int 4) 4,
       .insert (.int 5) 5, .insert (.int 6) 6, .insert (.int 7) 7, .insert (.int 8) 8]) = true ∧
    structuralInvariantOK (applyOps emptyBNode
      [.insert (.int 1) 1, .insert (.int 2) 2, .insert (.int 3) 3, .insert (.int 4) 4,
       .insert (.int 5) 5, .insert (.int 6) 6, .insert (.int 7) 7, .insert (.int 8) 8,
       .delete (.int 1)]) = false := by
  decide

/-! ### B-tree correctness (C4): order lemmas -/

theorem goCompare_int_neg {a b : Int} : goCompare (.int a) (.int b) < 0 ↔ a < b := by
  simp only [goCompare]
  split
  · simp
    omega
  · split
    · simp
      omega
    · simp
      omega

theorem goCompare_int_pos {a b : Int} : 0 < goCompare (.int a) (.int b) ↔ b < a := by
  simp only [goCompare]
  split
  · simp
    omega
  · split
    · simp
      omega
    · simp
      omega

theorem goCompare_int_zero {a b : Int} : goCompare (.int a) (.int b) = 0 ↔ a = b := by
  simp only [goCompare]
  split
  · simp
    omega
  · split
    · simp
      omega
    · simp
      omega

theorem vlt_int {a b : Int} : vlt (.int a) (.int b) ↔ a < b := goCompare_int_neg

theorem vlt_trans_int {a b c : Value} (ha : IsIntV a) (hb : IsIntV b) (hc : IsIntV c)
    (h1 : vlt a b) (h2 : vlt b c) : vlt a c := by
  obtain ⟨x, rfl⟩ := ha
  obtain ⟨y, rfl⟩ := hb
  obtain ⟨z, rfl⟩ := hc
  rw [vlt_int] at *
  omega

theorem vlt_irrefl {a : Value} (h : vlt a a) : False := by
  unfold vlt at h
  cases a <;> simp [goCompare] at h <;> omega

theorem vlt_asymm {a b : Value} (ha : IsIntV a) (hb : IsIntV b)
    (h1 : vlt a b) (h2 : vlt b a) : False := by
  obtain ⟨x, rfl⟩ := ha
  obtain ⟨y, rfl⟩ := hb
  rw [vlt_int] at h1 h2
  omega

theorem vlt_ne {a b : Value} (h : vlt a b) : a ≠ b := by
  rintro rfl
  exact vlt_irrefl h

theorem int_key_trichotomy {a b : Value} (ha : IsIntV a) (hb : IsIntV b) :
    vlt a b ∨ a = b ∨ vlt b a := by
  obtain ⟨x, rfl⟩ := ha
  obtain ⟨y, rfl⟩ := hb
  rw [vlt_int, vlt_int]
  rcases lt_trichotomy x y with h | h | h
  · exact Or.inl h
  · exact Or.inr (Or.inl (by rw [h]))
  · exact Or.inr (Or.inr h)

theorem goCompare_pos_iff {a b : Value} (ha : IsIntV a) (hb : IsIntV b) :
    0 < goCompare a b ↔ vlt b a := by
  obtain ⟨x, rfl⟩ := ha
  obtain ⟨y, rfl⟩ := hb
  rw [goCompare_int_pos, vlt_int]

theorem goCompare_zero_iff {a b : Value} (ha : IsIntV a) (hb : IsIntV b) :
    goCompare a b = 0 ↔ a = b := by
  obtain ⟨x, rfl⟩ := ha
  obtain ⟨y, rfl⟩ := hb
  rw [goCompare_int_zero]
  constructor
  · rintro rfl; rfl
  · intro h; injection h

theorem goCompare_neg_iff {a b : Value} (ha : IsIntV a) (hb : IsIntV b) :
    goCompare a b < 0 ↔ vlt a b := Iff.rfl

theorem goCompare_self_int {a : Value} (ha : IsIntV a) : goCompare a a = 0 := by
  obtain ⟨x, rfl⟩ := ha
  exact goCompare_int_zero.2 rfl

/-! ### B-tree correctness (C4): traversal decomposition -/

theorem traverse_leaf (ks : List Value) (vs : List Int) (cs : List BNode) :
    BNode.traverse (.mk ks vs cs true) = ks.zip vs := by
  simp [BNode.traverse]

theorem traverse_internal (ks : List Value) (vs : List Int) (cs : List BNode) :
    BNode.traverse (.mk ks vs cs false) = travList cs (ks.zip vs) := by
  simp [BNode.traverse]

theorem travList_nil (es : List (Value × Int)) : travList [] es = [] := by
  simp [travList]

theorem travList_last (c : BNode) (cs : List BNode) :
    travList (c :: cs) [] = BNode.traverse c := by
  simp [travList]

theorem travList_cons (c : BNode) (cs : List BNode) (e : Value × Int)
    (es : List (Value × Int)) :
    travList (c :: cs) (e :: es) = BNode.traverse c ++ e :: travList cs es := by
  simp [travList]

theorem travPre_nil_left (es : List (Value × Int)) : travPre [] es = [] := by
  simp [travPre]

theorem travPre_nil_right (cs : List BNode) : travPre cs [] = [] := by
  cases cs <;> simp [travPre]

theorem travPre_cons (c : BNode) (cs : List BNode) (e : Value × Int)
    (es : List (Value × Int)) :
    travPre (c :: cs) (e :: es) = (BNode.traverse c ++ [e]) ++ travPre cs es := by
  simp [travPre]

/-- Splitting an in-order traversal at key position `i`: the fully
interleaved prefix for the first `i` positions followed by the traversal of
the remaining children/entries. -/
theorem travList_decomp (i : Nat) (cs : List BNode) (es : List (Value × Int))
    (hi : i ≤ es.length) (hlen : es.length < cs.length) :
    travList cs es = travPre (cs.take i) (es.take i)
      ++ travList (cs.drop i) (es.drop i) := by
  induction i generalizing cs es with
  | zero => simp [travPre_nil_left]
  | succ j ih =>
    cases es with
    | nil => simp at hi
    | cons e es' =>
      cases cs with
      | nil => simp at hlen
      | cons c cs' =>
        rw [travList_cons]
        simp only [List.take, List.drop]
        rw [travPre_cons]
        rw [ih cs' es' (by simpa using hi) (by simpa using hlen)]
        simp [List.append_assoc]

/-- Traversing with the child list extended by one final node: the fully
interleaved part followed by that node's traversal. -/
theorem travList_snoc (cs : List BNode) (x : BNode) (es : List (Value × Int))
    (hlen : cs.length = es.length) :
    travList (cs ++ [x]) es = travPre cs es ++ BNode.traverse x := by
  induction cs generalizing es with
  | nil =>
    cases es with
    | nil => simp [travList_last, travPre_nil_left]
    | cons e es' => simp at hlen
  | cons c cs' ih =>
    cases es with
    | nil => simp at hlen
    | cons e es' =>
      rw [List.cons_append, travList_cons, travPre_cons,
        ih es' (by simpa using hlen)]
      simp [List.append_assoc]

/-- The node's own entries form a subsequence of its traversal. -/
theorem entries_sublist (cs : List BNode) (es : List (Value × Int))
    (hlen : es.length < cs.length) : List.Sublist es (travList cs es) := by
  induction es generalizing cs with
  | nil => exact List.nil_sublist _
  | cons e es' ih =>
    cases cs with
    | nil => simp at hlen
    | cons c cs' =>
      rw [travList_cons]
      have h1 : List.Sublist (e :: es') (e :: travList cs' es') :=
        (ih cs' (by simpa using hlen)).cons₂ e
      exact h1.trans (List.sublist_append_right _ _)

/-- Each child's traversal is an infix of the node's traversal. -/
theorem traverse_child_piece (cs : List BNode) (es : List (Value × Int))
    (c : BNode) (hc : c ∈ cs) (hlen : cs.length = es.length + 1) :
    BNode.traverse c <:+: travList cs es := by
  induction cs generalizing es with
  | nil => cases hc
  | cons c0 cs' ih =>
    cases es with
    | nil =>
      have hnil : cs' = [] := by
        have h0 := hlen
        simp at h0
        exact h0
      subst hnil
      rcases List.mem_singleton.1 hc with rfl
      rw [travList_last]
    | cons e es' =>
      rw [travList_cons]
      rcases List.mem_cons.1 hc with rfl | hc'
      · exact (List.prefix_append _ _).isInfix
      · have h1 := ih es' hc' (by simpa using hlen)
        have h2 : BNode.traverse c <:+: e :: travList cs' es' :=
          h1.trans (List.suffix_cons e _).isInfix
        exact h2.trans (List.suffix_append _ _).isInfix

/-! ### B-tree correctness (C4): invariant plumbing -/

theorem WFNode_leaf_inv {ks : List Value} {vs : List Int} {cs : List BNode}
    (h : WFNode (.mk ks vs cs true)) :
    vs.length = ks.length ∧ ks.length ≤ 7 ∧ cs = [] := by
  cases h with
  | leaf _ _ h1 h2 => exact ⟨h1, h2, rfl⟩

theorem WFNode_internal_inv {ks : List Value} {vs : List Int} {cs : List BNode}
    (h : WFNode (.mk ks vs cs false)) :
    vs.length = ks.length ∧ ks.length ≤ 7 ∧ cs.length = ks.length + 1 ∧
      ∀ c ∈ cs, WFNode c := by
  cases h with
  | internal _ _ _ h1 h2 h3 h4 => exact ⟨h1, h2, h3, h4⟩

theorem keyList_child_sublist {cs : List BNode} {es : List (Value × Int)}
    {c : BNode} (hc : c ∈ cs) (hlen : cs.length = es.length + 1) :
    List.Sublist (keyList c) ((travList cs es).map Prod.fst) :=
  ((traverse_child_piece cs es c hc hlen).sublist).map Prod.fst

theorem child_sorted {cs : List BNode} {es : List (Value × Int)} {c : BNode}
    (hc : c ∈ cs) (hlen : cs.length = es.length + 1)
    (hs : ((travList cs es).map Prod.fst).Pairwise vlt) :
    (keyList c).Pairwise vlt :=
  hs.sublist (keyList_child_sublist hc hlen)

theorem child_ints {cs : List BNode} {es : List (Value × Int)} {c : BNode}
    (hc : c ∈ cs) (hlen : cs.length = es.length + 1)
    (hint : ∀ x ∈ (travList cs es).map Prod.fst, IsIntV x) :
    ∀ x ∈ keyList c, IsIntV x :=
  fun x hx => hint x ((keyList_child_sublist hc hlen).mem hx)

/-- All keys of a fully interleaved prefix are below `k` when every entry key
of the prefix is. -/
theorem travPre_keys_bound {cs : List BNode} {es : List (Value × Int)} {k : Value}
    (hs : ((travPre cs es).map Prod.fst).Pairwise vlt)
    (hint : ∀ x ∈ (travPre cs es).map Prod.fst, IsIntV x) (hk : IsIntV k)
    (hes : ∀ e ∈ es, vlt e.1 k) (hlen : cs.length = es.length) :
    ∀ x ∈ (travPre cs es).map Prod.fst, vlt x k := by
  induction cs generalizing es with
  | nil =>
    rw [travPre_nil_left]
    intro x hx
    cases hx
  | cons c cs' ih =>
    cases es with
    | nil => simp at hlen
    | cons e es' =>
      have hshape : (travPre (c :: cs') (e :: es')).map Prod.fst
          = ((BNode.traverse c).map Prod.fst)
            ++ e.1 :: (travPre cs' es').map Prod.fst := by
        rw [travPre_cons]
        simp
      rw [hshape] at hs hint ⊢
      intro x hx
      rcases List.mem_append.1 hx with hx1 | hx2
      · -- x is a key of the child before entry e: x < e.1 < k
        have hxe : vlt x e.1 := by
          have hrel := (List.pairwise_append.1 hs).2.2
          exact hrel x hx1 e.1 (by simp)
        have hxk : IsIntV x := hint x (by simp [hx1])
        have hek : IsIntV e.1 := hint e.1 (by simp)
        exact vlt_trans_int hxk hek hk hxe (hes e (by simp))
      · rcases List.mem_cons.1 hx2 with rfl | hx3
        · exact hes e (by simp)
        · have hs' : ((travPre cs' es').map Prod.fst).Pairwise vlt :=
            (List.pairwise_cons.1 ((List.pairwise_append.1 hs).2.1)).2
          have hint' : ∀ y ∈ (travPre cs' es').map Prod.fst, IsIntV y :=
            fun y hy => hint y (by simp [hy])
          exact ih hs' hint' (fun e' he' => hes e' (by simp [he'])) (by simpa using hlen)
            x hx3

theorem insPos_le (k : Value) (ks : List Value) : insPos k ks ≤ ks.length := by
  unfold insPos
  omega

/-- The suffix from the insertion position is the reversed matching prefix of
the reversed list. -/
theorem insPos_drop (k : Value) (ks : List Value) :
    ks.drop (insPos k ks)
      = (ks.reverse.takeWhile (fun x => goCompare k x < 0)).reverse := by
  have hsplit : ks.reverse.takeWhile (fun x => goCompare k x < 0)
      ++ ks.reverse.dropWhile (fun x => goCompare k x < 0) = ks.reverse :=
    List.takeWhile_append_dropWhile _ _
  have hks : ks = (ks.reverse.dropWhile (fun x => goCompare k x < 0)).reverse
      ++ (ks.reverse.takeWhile (fun x => goCompare k x < 0)).reverse := by
    have := congrArg List.reverse hsplit
    rw [List.reverse_append] at this
    rw [this, List.reverse_reverse]
  have hlen2 : (ks.reverse.dropWhile (fun x => goCompare k x < 0)).reverse.length
      = insPos k ks := by
    unfold insPos
    have h1 := congrArg List.length hsplit
    simp only [List.length_append, List.length_reverse] at h1 ⊢
    omega
  nth_rewrite 2 [hks]
  rw [← hlen2, List.drop_left]

/-- The prefix before the insertion position, likewise. -/
theorem insPos_take (k : Value) (ks : List Value) :
    ks.take (insPos k ks)
      = (ks.reverse.dropWhile (fun x => goCompare k x < 0)).reverse := by
  have h1 := insPos_drop k ks
  have h2 : ks.take (insPos k ks) ++ ks.drop (insPos k ks) = ks :=
    List.take_append_drop _ _
  have hsplit : ks.reverse.takeWhile (fun x => goCompare k x < 0)
      ++ ks.reverse.dropWhile (fun x => goCompare k x < 0) = ks.reverse :=
    List.takeWhile_append_dropWhile _ _
  have hks : ks = (ks.reverse.dropWhile (fun x => goCompare k x < 0)).reverse
      ++ (ks.reverse.takeWhile (fun x => goCompare k x < 0)).reverse := by
    have := congrArg List.reverse hsplit
    rw [List.reverse_append] at this
    rw [this, List.reverse_reverse]
  rw [h1] at h2
  have := h2.trans hks
  exact List.append_cancel_right this

/-- Everything at or after the insertion position is above the key. -/
theorem insPos_drop_bound (k : Value) (ks : List Value) :
    ∀ x ∈ ks.drop (insPos k ks), vlt k x := by
  intro x hx
  rw [insPos_drop] at hx
  rw [List.mem_reverse] at hx
  have := List.mem_takeWhile_imp hx
  simpa [vlt] using this

theorem dropWhile_head_not {α : Type} (p : α → Bool) (l : List α) (h : α)
    (t : List α) (he : l.dropWhile p = h :: t) : ¬ p h := by
  induction l with
  | nil => cases he
  | cons a l' ih =>
    rw [List.dropWhile_cons] at he
    by_cases hp : p a
    · rw [if_pos hp] at he
      exact ih he
    · rw [if_neg hp] at he
      cases he
      exact hp

/-- Everything before the insertion position is below the key, provided the
keys are strictly sorted integers and the key is fresh. -/
theorem insPos_take_bound (k : Value) (ks : List Value)
    (hs : ks.Pairwise vlt) (hint : ∀ x ∈ ks, IsIntV x) (hk : IsIntV k)
    (hfresh : k ∉ ks) : ∀ x ∈ ks.take (insPos k ks), vlt x k := by
  intro x hx
  rw [insPos_take] at hx
  rw [List.mem_reverse] at hx
  set d := ks.reverse.dropWhile (fun x => goCompare k x < 0) with hd
  have hdsub : List.Sublist d ks.reverse := List.dropWhile_sublist _
  have hdesc : d.Pairwise (fun a b => vlt b a) := by
    have : ks.reverse.Pairwise (fun a b => vlt b a) := by
      rw [List.pairwise_reverse]
      exact hs
    exact this.sublist hdsub
  have hdint : ∀ y ∈ d, IsIntV y := by
    intro y hy
    exact hint y (List.mem_reverse.1 (hdsub.mem hy))
  have hdne : ∀ y ∈ d, y ≠ k := by
    intro y hy hcon
    exact hfresh (hcon ▸ List.mem_reverse.1 (hdsub.mem hy))
  cases hdm : d with
  | nil => rw [hdm] at hx; cases hx
  | cons hh tt =>
    have hnot : ¬ (goCompare k hh < 0) := by
      have := dropWhile_head_not _ _ _ _ hdm
      simpa using this
    have hhint : IsIntV hh := hdint hh (by rw [hdm]; simp)
    have hhk : vlt hh k := by
      rcases int_key_trichotomy hhint hk with h1 | h1 | h1
      · exact h1
      · exact absurd h1 (hdne hh (by rw [hdm]; simp))
      · exact absurd h1 hnot
    rw [hdm] at hx
    rcases List.mem_cons.1 hx with rfl | hx'
    · exact hhk
    · have hxh : vlt x hh := by
        rw [hdm] at hdesc
        exact (List.pairwise_cons.1 hdesc).1 x hx'
      have hxint : IsIntV x := hdint x (by rw [hdm]; simp [hx'])
      exact vlt_trans_int hxint hhint hk hxh hhk

/-! ### B-tree correctness (C4): search -/

theorem searchLeaf_found (es : List (Value × Int)) (q : Value) (v : Int)
    (hs : (es.map Prod.fst).Pairwise vlt)
    (hint : ∀ x ∈ es.map Prod.fst, IsIntV x) (hq : IsIntV q)
    (hmem : (q, v) ∈ es) : searchLeaf es q = (v, true) := by
  induction es with
  | nil => cases hmem
  | cons e es' ih =>
    obtain ⟨k0, v0⟩ := e
    have hk0 : IsIntV k0 := hint k0 (by simp)
    rcases List.mem_cons.1 hmem with heq | hmem'
    · injection heq with h1 h2
      subst h1
      subst h2
      unfold searchLeaf
      rw [if_neg (by rw [goCompare_self_int hq]; omega),
        if_pos (goCompare_self_int hq)]
    · have hlt : vlt k0 q := by
        have := (List.pairwise_cons.1 hs).1
        exact this q (List.mem_map.2 ⟨(q, v), hmem', rfl⟩)
      unfold searchLeaf
      rw [if_pos ((goCompare_pos_iff hq hk0).2 hlt)]
      exact ih ((List.pairwise_cons.1 hs).2) (fun x hx => hint x (by simp [hx])) hmem'

theorem searchLeaf_not_found (es : List (Value × Int)) (q : Value)
    (hint : ∀ x ∈ es.map Prod.fst, IsIntV x) (hq : IsIntV q)
    (hmem : q ∉ es.map Prod.fst) : searchLeaf es q = (-1, false) := by
  induction es with
  | nil => rfl
  | cons e es' ih =>
    obtain ⟨k0, v0⟩ := e
    have hk0 : IsIntV k0 := hint k0 (by simp)
    have hne : q ≠ k0 := by
      intro hcon
      exact hmem (by simp [hcon])
    unfold searchLeaf
    by_cases hpos : 0 < goCompare q k0
    · rw [if_pos hpos]
      exact ih (fun x hx => hint x (by simp [hx])) (fun hcon => hmem (by simp [hcon]))
    · rw [if_neg hpos, if_neg (fun hcon => hne ((goCompare_zero_iff hq hk0).1 hcon))]

theorem searchInternal_found (cs : List BNode) (es : List (Value × Int))
    (q : Value) (v : Int) (hlen : cs.length = es.length + 1)
    (hrec : ∀ c ∈ cs, (q, v) ∈ BNode.traverse c → searchNode c q = (v, true))
    (hs : ((travList cs es).map Prod.fst).Pairwise vlt)
    (hint : ∀ x ∈ (travList cs es).map Prod.fst, IsIntV x) (hq : IsIntV q)
    (hmem : (q, v) ∈ travList cs es) :
    searchInternal cs es q = (v, true) := by
  induction es generalizing cs with
  | nil =>
    cases cs with
    | nil => simp at hlen
    | cons c cs' =>
      rw [travList_last] at hmem
      exact hrec c (by simp) hmem
  | cons e es' ih =>
    cases cs with
    | nil => simp at hlen
    | cons c cs' =>
      obtain ⟨k0, v0⟩ := e
      rw [travList_cons] at hmem hs hint
      have hshape : ((BNode.traverse c ++ (k0, v0) :: travList cs' es').map Prod.fst)
          = (BNode.traverse c).map Prod.fst
            ++ k0 :: (travList cs' es').map Prod.fst := by simp
      rw [hshape] at hs hint
      have hk0 : IsIntV k0 := hint k0 (by simp)
      rcases int_key_trichotomy hq hk0 with hqk | hqk | hqk
      · -- q < k0: the target lies in the first child
        have hmemc : (q, v) ∈ BNode.traverse c := by
          rcases List.mem_append.1 hmem with h1 | h2
          · exact h1
          · rcases List.mem_cons.1 h2 with heq | h3
            · injection heq with hh _
              exact absurd hh (vlt_ne hqk)
            · exfalso
              have hqmem : q ∈ (travList cs' es').map Prod.fst :=
                List.mem_map.2 ⟨(q, v), h3, rfl⟩
              have hk0q : vlt k0 q :=
                (List.pairwise_cons.1 (List.pairwise_append.1 hs).2.1).1 q hqmem
              exact vlt_asymm hq hk0 hqk hk0q
        unfold searchInternal
        rw [if_neg (by
            intro hcon
            exact vlt_asymm hk0 hq ((goCompare_pos_iff hq hk0).1 hcon) hqk),
          if_neg (by
            intro hcon
            exact vlt_ne hqk ((goCompare_zero_iff hq hk0).1 hcon))]
        exact hrec c (by simp) hmemc
      · -- q = k0: found at this entry
        subst hqk
        have hv : v = v0 := by
          rcases List.mem_append.1 hmem with h1 | h2
          · exfalso
            have hqmem : q ∈ (BNode.traverse c).map Prod.fst :=
              List.mem_map.2 ⟨(q, v), h1, rfl⟩
            have := (List.pairwise_append.1 hs).2.2 q hqmem q (by simp)
            exact vlt_irrefl this
          · rcases List.mem_cons.1 h2 with heq | h3
            · injection heq
            · exfalso
              have hqmem : q ∈ (travList cs' es').map Prod.fst :=
                List.mem_map.2 ⟨(q, v), h3, rfl⟩
              have := (List.pairwise_cons.1 (List.pairwise_append.1 hs).2.1).1 q hqmem
              exact vlt_irrefl this
        subst hv
        unfold searchInternal
        rw [if_neg (by rw [goCompare_self_int hq]; omega),
          if_pos (goCompare_self_int hq)]
      · -- k0 < q: the target lies beyond this entry
        have hmem' : (q, v) ∈ travList cs' es' := by
          rcases List.mem_append.1 hmem with h1 | h2
          · exfalso
            have hqmem : q ∈ (BNode.traverse c).map Prod.fst :=
              List.mem_map.2 ⟨(q, v), h1, rfl⟩
            have := (List.pairwise_append.1 hs).2.2 q hqmem k0 (by simp)
            exact vlt_asymm hq hk0 this hqk
          · rcases List.mem_cons.1 h2 with heq | h3
            · injection heq with hh _
              exact absurd hh.symm (vlt_ne hqk)
            · exact h3
        unfold searchInternal
        rw [if_pos ((goCompare_pos_iff hq hk0).2 hqk)]
        exact ih cs' (by simpa using hlen)
          (fun c' hc' hm => hrec c' (by simp [hc']) hm)
          ((List.pairwise_cons.1 (List.pairwise_append.1 hs).2.1).2)
          (fun x hx => hint x (by simp [hx])) hmem'

theorem searchInternal_not_found (cs : List BNode) (es : List (Value × Int))
    (q : Value) (hlen : cs.length = es.length + 1)
    (hrec : ∀ c ∈ cs, q ∉ keyList c → searchNode c q = (-1, false))
    (hint : ∀ x ∈ (travList cs es).map Prod.fst, IsIntV x) (hq : IsIntV q)
    (hmem : q ∉ (travList cs es).map Prod.fst) :
    searchInternal cs es q = (-1, false) := by
  induction es generalizing cs with
  | nil =>
    cases cs with
    | nil => simp at hlen
    | cons c cs' =>
      rw [travList_last] at hmem
      exact hrec c (by simp) hmem
  | cons e es' ih =>
    cases cs with
    | nil => simp at hlen
    | cons c cs' =>
      obtain ⟨k0, v0⟩ := e
      rw [travList_cons] at hmem hint
      have hshape : ((BNode.traverse c ++ (k0, v0) :: travList cs' es').map Prod.fst)
          = (BNode.traverse c).map Prod.fst
            ++ k0 :: (travList cs' es').map Prod.fst := by simp
      rw [hshape] at hmem hint
      have hk0 : IsIntV k0 := hint k0 (by simp)
      have hne : q ≠ k0 := by
        intro hcon
        exact hmem (by simp [hcon])
      unfold searchInternal
      by_cases hpos : 0 < goCompare q k0
      · rw [if_pos hpos]
        exact ih cs' (by simpa using hlen)
          (fun c' hc' hm => hrec c' (by simp [hc']) hm)
          (fun x hx => hint x (by simp [hx]))
          (fun hcon => hmem (by simp [hcon]))
      · rw [if_neg hpos,
          if_neg (fun hcon => hne ((goCompare_zero_iff hq hk0).1 hcon))]
        apply hrec c (by simp)
        intro hcon
        exact hmem (by simp [keyList] at hcon ⊢; exact Or.inl hcon)

/-- Search correctness on well-formed ordered integer-keyed trees: every
stored pair is found with its position, and a key not stored reports
not-found. -/
theorem searchNode_spec (n : BNode) (hwf : WFNode n) :
    (keyList n).Pairwise vlt → (∀ x ∈ keyList n, IsIntV x) →
    ∀ q : Value, IsIntV q →
    (∀ v : Int, (q, v) ∈ BNode.traverse n → searchNode n q = (v, true)) ∧
    (q ∉ keyList n → searchNode n q = (-1, false)) := by
  induction hwf with
  | leaf ks vs h1 h2 =>
    intro hs hint q hq
    constructor
    · intro v hmem
      show searchLeaf (ks.zip vs) q = (v, true)
      exact searchLeaf_found _ _ _ hs hint hq hmem
    · intro hmem
      show searchLeaf (ks.zip vs) q = (-1, false)
      exact searchLeaf_not_found _ _ hint hq hmem
  | internal ks vs cs h1 h2 h3 h4 ih =>
    intro hs hint q hq
    have hlen : cs.length = (ks.zip vs).length + 1 := by
      rw [List.length_zip]
      omega
    have hskl : ((travList cs (ks.zip vs)).map Prod.fst).Pairwise vlt := hs
    have hintl : ∀ x ∈ (travList cs (ks.zip vs)).map Prod.fst, IsIntV x := hint
    constructor
    · intro v hmem
      show searchInternal cs (ks.zip vs) q = (v, true)
      apply searchInternal_found cs (ks.zip vs) q v hlen _ hskl hintl hq hmem
      intro c hc hm
      exact (ih c hc (child_sorted hc hlen hskl) (child_ints hc hlen hintl) q hq).1 v hm
    · intro hmem
      show searchInternal cs (ks.zip vs) q = (-1, false)
      apply searchInternal_not_found cs (ks.zip vs) q hlen _ hintl hq hmem
      intro c hc hm
      exact (ih c hc (child_sorted hc hlen hskl) (child_ints hc hlen hintl) q hq).2 hm

/-! ### B-tree correctness (C4): splitting -/

theorem take_succ_getElem {α : Type} (l : List α) (n : Nat) (h : n < l.length) :
    l.take (n + 1) = l.take n ++ [l[n]] := by
  induction l generalizing n with
  | nil => simp at h
  | cons a t ih =>
    cases n with
    | zero => simp
    | succ m =>
      simp only [List.take, List.cons_append, List.getElem_cons_succ]
      rw [ih m (by simpa using h)]

theorem zip_take {α β : Type} (l : List α) (l' : List β) (n : Nat) :
    (l.zip l').take n = (l.take n).zip (l'.take n) := by
  induction l generalizing l' n with
  | nil => simp
  | cons a t ih =>
    cases l' with
    | nil => simp
    | cons b t' =>
      cases n with
      | zero => simp
      | succ m =>
        simp only [List.zip_cons_cons, List.take]
        exact congrArg (List.cons (a, b)) (ih t' m)

theorem zip_drop {α β : Type} (l : List α) (l' : List β) (n : Nat) :
    (l.zip l').drop n = (l.drop n).zip (l'.drop n) := by
  induction l generalizing l' n with
  | nil => simp
  | cons a t ih =>
    cases l' with
    | nil => simp
    | cons b t' =>
      cases n with
      | zero => simp
      | succ m =>
        simp only [List.zip_cons_cons, List.drop]
        exact ih t' m

/-- `splitChild` on a full (7-key) well-formed child: the result in explicit
form, the child's traversal split around the promoted median, and
well-formedness of both halves. -/
theorem splitChild_spec (ks : List Value) (vs : List Int) (cs : List BNode)
    (i : Nat) (c : BNode)
    (hc : cs.get? i = some c) (hcwf : WFNode c) (hfull : c.keys.length = 7) :
    ∃ left right midk midv,
      splitChild (.mk ks vs cs false) i
        = .mk (insertAt i midk ks) (insertAt i midv vs)
            (insertAt (i + 1) right (cs.set i left)) false ∧
      BNode.traverse c = BNode.traverse left ++ (midk, midv) :: BNode.traverse right ∧
      WFNode left ∧ WFNode right ∧
      left.keys.length = 3 ∧ right.keys.length = 3 := by
  obtain ⟨fk, fv, fc, fleaf⟩ := c
  have hfk : fk.length = 7 := hfull
  cases fleaf with
  | true =>
    obtain ⟨hfv, _, hfc⟩ := WFNode_leaf_inv hcwf
    subst hfc
    refine ⟨.mk (fk.take 3) (fv.take 3) [] true,
            .mk (fk.drop 4) (fv.drop 4) [] true,
            fk.getD 3 Value.null, fv.getD 3 0, ?_, ?_, ?_, ?_, ?_, ?_⟩
    · unfold splitChild
      simp only [hc]
      simp
    · show fk.zip fv
        = (fk.take 3).zip (fv.take 3) ++ (fk.getD 3 Value.null, fv.getD 3 0)
            :: (fk.drop 4).zip (fv.drop 4)
      rw [← zip_take, ← zip_drop]
      have hlz : (fk.zip fv).length = 7 := by
        rw [List.length_zip]
        omega
      have h3 : (fk.zip fv).drop 3 = (fk.zip fv)[3] :: (fk.zip fv).drop 4 :=
        List.drop_eq_getElem_cons (by omega)
      have hmid : (fk.zip fv)[3] = (fk.getD 3 Value.null, fv.getD 3 0) := by
        rw [List.getElem_zip]
        rw [List.getD_eq_getElem, List.getD_eq_getElem]
      calc fk.zip fv = (fk.zip fv).take 3 ++ (fk.zip fv).drop 3 :=
            (List.take_append_drop _ _).symm
        _ = (fk.zip fv).take 3 ++ (fk.getD 3 Value.null, fv.getD 3 0)
              :: (fk.zip fv).drop 4 := by rw [h3, hmid]
    · exact WFNode.leaf _ _ (by simp <;> omega) (by simp <;> omega)
    · exact WFNode.leaf _ _ (by simp <;> omega) (by simp <;> omega)
    · show (fk.take 3).length = 3
      simp
      omega
    · show (fk.drop 4).length = 3
      simp
      omega
  | false =>
    obtain ⟨hfv, _, hfc, hwfc⟩ := WFNode_internal_inv hcwf
    refine ⟨.mk (fk.take 3) (fv.take 3) (fc.take 4) false,
            .mk (fk.drop 4) (fv.drop 4) (fc.drop 4) false,
            fk.getD 3 Value.null, fv.getD 3 0, ?_, ?_, ?_, ?_, ?_, ?_⟩
    · unfold splitChild
      simp only [hc]
      simp
    · show travList fc (fk.zip fv)
        = travList (fc.take 4) ((fk.take 3).zip (fv.take 3))
            ++ (fk.getD 3 Value.null, fv.getD 3 0)
              :: travList (fc.drop 4) ((fk.drop 4).zip (fv.drop 4))
      rw [← zip_take, ← zip_drop]
      have hlz : (fk.zip fv).length = 7 := by
        rw [List.length_zip]
        omega
      have htake4 : fc.take 4 = fc.take 3 ++ [fc[3]] :=
        take_succ_getElem fc 3 (by omega)
      have hsnoc : travList (fc.take 4) ((fk.zip fv).take 3)
          = travPre (fc.take 3) ((fk.zip fv).take 3)
            ++ BNode.traverse (fc[3]) := by
        rw [htake4]
        exact travList_snoc _ _ _ (by simp <;> omega)
      have hdec : travList fc (fk.zip fv)
          = travPre (fc.take 3) ((fk.zip fv).take 3)
            ++ travList (fc.drop 3) ((fk.zip fv).drop 3) :=
        travList_decomp 3 fc (fk.zip fv) (by omega) (by omega)
      have hfc3 : fc.drop 3 = fc[3] :: fc.drop 4 :=
        List.drop_eq_getElem_cons (by omega)
      have hez3 : (fk.zip fv).drop 3 = (fk.zip fv)[3] :: (fk.zip fv).drop 4 :=
        List.drop_eq_getElem_cons (by omega)
      have hmid : (fk.zip fv)[3] = (fk.getD 3 Value.null, fv.getD 3 0) := by
        rw [List.getElem_zip]
        rw [List.getD_eq_getElem, List.getD_eq_getElem]
      rw [hdec, hfc3, hez3, hmid, travList_cons, hsnoc]
      simp [List.append_assoc]
    · refine WFNode.internal _ _ _ (by simp <;> omega) (by simp <;> omega) (by simp <;> omega) ?_
      intro x hx
      exact hwfc x (List.mem_of_mem_take hx)
    · refine WFNode.internal _ _ _ (by simp <;> omega) (by simp <;> omega) (by simp <;> omega) ?_
      intro x hx
      exact hwfc x (List.mem_of_mem_drop hx)
    · show (fk.take 3).length = 3
      simp
      omega
    · show (fk.drop 4).length = 3
      simp
      omega

/-! ### B-tree correctness (C4): list algebra for insertion -/

theorem insertAt_length {α : Type} (l : List α) (i : Nat) (a : α) (h : i ≤ l.length) :
    (insertAt i a l).length = l.length + 1 := by
  unfold insertAt
  simp
  omega

theorem insertAt_cons_succ {α : Type} (x : α) (t : List α) (i : Nat) (a : α) :
    insertAt (i + 1) a (x :: t) = x :: insertAt i a t := by
  unfold insertAt
  simp [List.take, List.drop]

theorem insertAt_getD {α : Type} (l : List α) (i : Nat) (a d : α) (h : i ≤ l.length) :
    (insertAt i a l).getD i d = a := by
  induction l generalizing i with
  | nil =>
    have : i = 0 := by simpa using h
    subst this
    rfl
  | cons x t ih =>
    cases i with
    | zero => rfl
    | succ j =>
      rw [insertAt_cons_succ]
      show (insertAt j a t).getD j d = a
      exact ih j (by simpa using h)

theorem insertAt_take_eq {α : Type} (l : List α) (i : Nat) (a : α) (h : i ≤ l.length) :
    (insertAt i a l).take i = l.take i := by
  induction l generalizing i with
  | nil =>
    have : i = 0 := by simpa using h
    subst this
    rfl
  | cons x t ih =>
    cases i with
    | zero => rfl
    | succ j =>
      rw [insertAt_cons_succ]
      simp only [List.take]
      rw [ih j (by simpa using h)]

theorem insertAt_drop_eq {α : Type} (l : List α) (i : Nat) (a : α) (h : i ≤ l.length) :
    (insertAt i a l).drop i = a :: l.drop i := by
  induction l generalizing i with
  | nil =>
    have : i = 0 := by simpa using h
    subst this
    rfl
  | cons x t ih =>
    cases i with
    | zero => rfl
    | succ j =>
      rw [insertAt_cons_succ]
      simp only [List.drop]
      exact ih j (by simpa using h)

theorem zip_append_eq {α β : Type} (l₁ l₃ : List α) (l₂ l₄ : List β)
    (h : l₁.length = l₂.length) :
    (l₁ ++ l₃).zip (l₂ ++ l₄) = l₁.zip l₂ ++ l₃.zip l₄ := by
  induction l₁ generalizing l₂ with
  | nil =>
    cases l₂ with
    | nil => simp
    | cons b t => simp at h
  | cons a t ih =>
    cases l₂ with
    | nil => simp at h
    | cons b t' =>
      simp only [List.cons_append, List.zip_cons_cons]
      rw [ih t' (by simpa using h)]

theorem insertAt_zip {α β : Type} (l : List α) (l' : List β) (i : Nat) (a : α) (b : β)
    (h : i ≤ l.length) (h' : i ≤ l'.length) :
    (insertAt i a l).zip (insertAt i b l') = insertAt i (a, b) (l.zip l') := by
  unfold insertAt
  rw [zip_append_eq _ _ _ _ (by simp; omega)]
  rw [List.zip_cons_cons, ← zip_take, ← zip_drop]

theorem take_append_plus {α : Type} (A B : List α) (n : Nat) :
    (A ++ B).take (A.length + n) = A ++ B.take n := by
  induction A with
  | nil => simp
  | cons a t ih =>
    simp only [List.cons_append, List.length_cons, List.take]
    rw [Nat.succ_add]
    simp only [List.take]
    rw [ih]

theorem drop_append_plus {α : Type} (A B : List α) (n : Nat) :
    (A ++ B).drop (A.length + n) = B.drop n := by
  induction A with
  | nil => simp
  | cons a t ih =>
    simp only [List.cons_append, List.length_cons]
    rw [Nat.succ_add]
    simp only [List.drop]
    rw [ih]

theorem set_append_plus {α : Type} (A B : List α) (n : Nat) (x : α) :
    (A ++ B).set (A.length + n) x = A ++ B.set n x := by
  induction A with
  | nil => simp
  | cons a t ih =>
    simp only [List.cons_append, List.length_cons]
    rw [Nat.succ_add]
    simp only [List.set]
    rw [ih]

theorem get?_append_plus {α : Type} (A B : List α) (n : Nat) :
    (A ++ B).get? (A.length + n) = B.get? n := by
  induction A with
  | nil => simp
  | cons a t ih =>
    simp only [List.cons_append, List.length_cons]
    rw [Nat.succ_add]
    simp only [List.get?]
    exact ih

theorem set_take_eq {α : Type} (l : List α) (i : Nat) (a : α) :
    (l.set i a).take i = l.take i := by
  induction l generalizing i with
  | nil => simp
  | cons x t ih =>
    cases i with
    | zero => simp
    | succ j =>
      simp only [List.set, List.take]
      rw [ih]

theorem set_drop_eq {α : Type} (l : List α) (i : Nat) (a : α) (h : i < l.length) :
    (l.set i a).drop i = a :: l.drop (i + 1) := by
  induction l generalizing i with
  | nil => simp at h
  | cons x t ih =>
    cases i with
    | zero => simp
    | succ j =>
      simp only [List.set, List.drop]
      exact ih j (by simpa using h)

/-- The child list after a split, in explicit segment form. -/
theorem split_children_shape (cs : List BNode) (i : Nat) (left right : BNode)
    (h : i < cs.length) :
    insertAt (i + 1) right (cs.set i left)
      = cs.take i ++ left :: right :: cs.drop (i + 1) := by
  unfold insertAt
  have h1 : (cs.set i left).take (i + 1) = cs.take i ++ [left] := by
    rw [take_succ_getElem _ i (by simpa using h)]
    rw [set_take_eq]
    congr 1
    simp [List.getElem_set]
  have h2 : (cs.set i left).drop (i + 1) = cs.drop (i + 1) := by
    have h3 := set_drop_eq cs i left h
    have h4 : (cs.set i left).drop (i + 1) = ((cs.set i left).drop i).drop 1 := by
      rw [List.drop_drop]
    rw [h4, h3]
    rfl
  rw [h1, h2]
  simp

theorem travPre_snoc (A : List BNode) (B : List (Value × Int)) (c : BNode)
    (e : Value × Int) (h : A.length = B.length) :
    travPre (A ++ [c]) (B ++ [e]) = travPre A B ++ (BNode.traverse c ++ [e]) := by
  unfold travPre
  rw [List.zipWith_append _ _ _ _ _ h]
  simp

/-! ### B-tree correctness (C4): insertion branch equations -/

theorem insertNonFull_leaf_eq (ks : List Value) (vs : List Int) (cs : List BNode)
    (k : Value) (v : Int) :
    insertNonFull (.mk ks vs cs true) k v
      = .mk (insertAt (insPos k ks) k ks) (insertAt (insPos k ks) v vs) cs true := by
  unfold insertNonFull
  simp

theorem insertNonFull_nosplit_eq (ks : List Value) (vs : List Int) (cs : List BNode)
    (k : Value) (v : Int) (c : BNode)
    (hc : cs.get? (insPos k ks) = some c) (h7 : ¬ 7 ≤ c.keys.length) :
    insertNonFull (.mk ks vs cs false) k v
      = .mk ks vs (cs.set (insPos k ks) (insertNonFull c k v)) false := by
  unfold insertNonFull
  simp only [Bool.false_eq_true, if_false]
  split
  · rename_i heq
    rw [hc] at heq
    cases heq
  · rename_i c1 heq
    rw [hc] at heq
    injection heq with heq'
    subst heq'
    rw [if_neg h7]
    rw [insertNonFull.eq_def]

theorem insertNonFull_split_eq (ks ks' : List Value) (vs : List Int)
    (cs cs' : List BNode) (vs' : List Int) (leaf' : Bool)
    (k : Value) (v : Int) (c c' : BNode)
    (hc : cs.get? (insPos k ks) = some c) (h7 : 7 ≤ c.keys.length)
    (hp : splitChild (.mk ks vs cs false) (insPos k ks) = .mk ks' vs' cs' leaf')
    (i' : Nat)
    (hi' : i' = if 0 < goCompare k (ks'.getD (insPos k ks) Value.null)
        then insPos k ks + 1 else insPos k ks)
    (hc' : cs'.get? i' = some c') :
    insertNonFull (.mk ks vs cs false) k v
      = .mk ks' vs' (cs'.set i' (insertNonFull c' k v)) leaf' := by
  unfold insertNonFull
  simp only [Bool.false_eq_true, if_false]
  split
  · rename_i heq
    rw [hc] at heq
    cases heq
  · rename_i c1 heq
    rw [hc] at heq
    injection heq with heq'
    subst heq'
    rw [if_pos h7]
    split
    · rename_i ks2 vs2 cs2 leaf2 hp2
      rw [hp] at hp2
      injection hp2 with e1 e2 e3 e4
      subst e1
      subst e2
      subst e3
      subst e4
      split
      · rename_i heq2
        rw [← hi'] at heq2
        rw [hc'] at heq2
        cases heq2
      · rename_i c2 heq2
        rw [← hi'] at heq2
        rw [hc'] at heq2
        injection heq2 with heq3
        subst heq3
        rw [← hi']
        rw [insertNonFull.eq_def]

/-- Replacing the child at position `j` by one whose traversal carries the
new entry at its sorted position inserts that entry at its sorted position
in the whole node's traversal. -/
theorem replace_child_insert (cs : List BNode) (es : List (Value × Int)) (j : Nat)
    (c c' : BNode) (k : Value) (v : Int) (m1 m2 : List (Value × Int))
    (hlen : cs.length = es.length + 1) (hj : j ≤ es.length)
    (hc : cs.get? j = some c)
    (hs : ((travList cs es).map Prod.fst).Pairwise vlt)
    (hint : ∀ x ∈ (travList cs es).map Prod.fst, IsIntV x)
    (hk : IsIntV k)
    (hEtake : ∀ e ∈ es.take j, vlt e.1 k)
    (hEdrop : ∀ e ∈ es.drop j, vlt k e.1)
    (hm : BNode.traverse c = m1 ++ m2)
    (hm1 : ∀ e ∈ m1, vlt e.1 k) (hm2 : ∀ e ∈ m2, vlt k e.1)
    (hm' : BNode.traverse c' = m1 ++ (k, v) :: m2) :
    ∃ l1 l2, travList cs es = l1 ++ l2 ∧
      (∀ e ∈ l1, vlt e.1 k) ∧ (∀ e ∈ l2, vlt k e.1) ∧
      travList (cs.set j c') es = l1 ++ (k, v) :: l2 := by
  have hjc : j < cs.length := by omega
  have hdec := travList_decomp j cs es hj (by omega)
  have hdec' := travList_decomp j (cs.set j c') es hj (by simp; omega)
  rw [set_take_eq] at hdec'
  have hdropc : cs.drop j = c :: cs.drop (j + 1) := by
    have h1 := List.drop_eq_getElem_cons hjc
    rw [h1]
    congr 1
    have := List.get?_eq_some.1 hc
    rcases this with ⟨h2, h3⟩
    rw [← h3]
    simp
  have hdropc' : (cs.set j c').drop j = c' :: cs.drop (j + 1) := set_drop_eq cs j c' hjc
  have hA : ∀ e ∈ travPre (cs.take j) (es.take j), vlt e.1 k := by
    intro e he
    have hkeys : ((travList cs es).map Prod.fst)
        = (travPre (cs.take j) (es.take j)).map Prod.fst
          ++ (travList (cs.drop j) (es.drop j)).map Prod.fst := by
      rw [hdec, List.map_append]
    have hsA : ((travPre (cs.take j) (es.take j)).map Prod.fst).Pairwise vlt := by
      rw [hkeys] at hs
      exact (List.pairwise_append.1 hs).1
    have hintA : ∀ x ∈ (travPre (cs.take j) (es.take j)).map Prod.fst, IsIntV x := by
      intro x hx
      apply hint
      rw [hkeys]
      exact List.mem_append.2 (Or.inl hx)
    have := travPre_keys_bound hsA hintA hk hEtake
      (by
        have h1 : (cs.take j).length = j := by simp; omega
        have h2 : (es.take j).length = j := by simp; omega
        rw [h1, h2])
    exact this e.1 (List.mem_map.2 ⟨e, he, rfl⟩)
  cases hdes : es.drop j with
  | nil =>
    refine ⟨travPre (cs.take j) (es.take j) ++ m1, m2, ?_, ?_, hm2, ?_⟩
    · rw [hdec, hdes, hdropc, travList_last, hm, List.append_assoc]
    · intro e he
      rcases List.mem_append.1 he with h1 | h2
      · exact hA e h1
      · exact hm1 e h2
    · rw [hdec', hdes, hdropc', travList_last, hm']
      simp [List.append_assoc]
  | cons e0 des' =>
    have hR : ∀ e ∈ travList (cs.drop (j + 1)) des', vlt k e.1 := by
      intro e he
      have he0 : vlt k e0.1 := hEdrop e0 (by rw [hdes]; simp)
      have hsuffix : ((e0 :: travList (cs.drop (j + 1)) des').map Prod.fst).Pairwise vlt := by
        have hshape : travList cs es
            = (travPre (cs.take j) (es.take j) ++ BNode.traverse c)
              ++ e0 :: travList (cs.drop (j + 1)) des' := by
          rw [hdec, hdes, hdropc, travList_cons, List.append_assoc]
        rw [hshape, List.map_append] at hs
        exact (List.pairwise_append.1 hs).2.1
      have he01 : vlt e0.1 e.1 :=
        (List.pairwise_cons.1 hsuffix).1 e.1 (List.mem_map.2 ⟨e, he, rfl⟩)
      have hshape : travList cs es
          = (travPre (cs.take j) (es.take j) ++ BNode.traverse c)
            ++ e0 :: travList (cs.drop (j + 1)) des' := by
        rw [hdec, hdes, hdropc, travList_cons, List.append_assoc]
      have hie0 : IsIntV e0.1 := by
        apply hint
        rw [hshape]
        simp
      have hie : IsIntV e.1 := by
        apply hint
        rw [hshape]
        have : e.1 ∈ (travList (cs.drop (j + 1)) des').map Prod.fst :=
          List.mem_map.2 ⟨e, he, rfl⟩
        simp [this]
      exact vlt_trans_int hk hie0 hie he0 he01
    refine ⟨travPre (cs.take j) (es.take j) ++ m1,
            m2 ++ e0 :: travList (cs.drop (j + 1)) des', ?_, ?_, ?_, ?_⟩
    · rw [hdec, hdes, hdropc, travList_cons, hm]
      simp [List.append_assoc]
    · intro e he
      rcases List.mem_append.1 he with h1 | h2
      · exact hA e h1
      · exact hm1 e h2
    · intro e he
      rcases List.mem_append.1 he with h1 | h2
      · exact hm2 e h1
      · rcases List.mem_cons.1 h2 with rfl | h3
        · exact hEdrop e (by rw [hdes]; simp)
        · exact hR e h3
    · rw [hdec', hdes, hdropc', travList_cons, hm']
      simp [List.append_assoc]

/-- Splitting a full child leaves the in-order traversal unchanged. -/
theorem splitChild_flat (cs : List BNode) (es : List (Value × Int)) (i : Nat)
    (c left right : BNode) (midk : Value) (midv : Int)
    (hlen : cs.length = es.length + 1) (hi : i ≤ es.length)
    (hc : cs.get? i = some c)
    (hsplit : BNode.traverse c = BNode.traverse left ++ (midk, midv) :: BNode.traverse right) :
    travList (cs.take i ++ left :: right :: cs.drop (i + 1)) (insertAt i (midk, midv) es)
      = travList cs es := by
  have hic : i < cs.length := by omega
  have htklen : (cs.take i).length = i := by simp; omega
  have hdropc : cs.drop i = c :: cs.drop (i + 1) := by
    have h1 := List.drop_eq_getElem_cons hic
    rw [h1]
    congr 1
    rcases List.get?_eq_some.1 hc with ⟨h2, h3⟩
    rw [← h3]
    simp
  have hdecR := travList_decomp i cs es hi (by omega)
  have hdecL := travList_decomp i (cs.take i ++ left :: right :: cs.drop (i + 1))
    (insertAt i (midk, midv) es) (by rw [insertAt_length _ _ _ hi]; omega)
    (by simp [insertAt_length _ _ _ hi]; omega)
  have htakeL : (cs.take i ++ left :: right :: cs.drop (i + 1)).take i = cs.take i := by
    have := take_append_plus (cs.take i) (left :: right :: cs.drop (i + 1)) 0
    rw [htklen] at this
    simpa using this
  have hdropL : (cs.take i ++ left :: right :: cs.drop (i + 1)).drop i
      = left :: right :: cs.drop (i + 1) := by
    have := drop_append_plus (cs.take i) (left :: right :: cs.drop (i + 1)) 0
    rw [htklen] at this
    simpa using this
  rw [htakeL, insertAt_take_eq _ _ _ hi, hdropL, insertAt_drop_eq _ _ _ hi] at hdecL
  rw [hdecL, hdecR, hdropc]
  congr 1
  cases hdes : es.drop i with
  | nil =>
    rw [travList_last, travList_cons, travList_last, hsplit]
  | cons e0 des' =>
    rw [travList_cons, travList_cons, travList_cons, hsplit]
    simp [List.append_assoc]


theorem WFNode_keys_le {n : BNode} (h : WFNode n) : n.keys.length ≤ 7 := by
  cases h with
  | leaf ks vs h1 h2 => exact h2
  | internal ks vs cs h1 h2 h3 h4 => exact h2

/-- Shared context facts for an internal node under the full invariant. -/
theorem internal_ctx (ks : List Value) (vs : List Int) (cs : List BNode) (k : Value)
    (hwf : WFNode (.mk ks vs cs false))
    (hs : (keyList (.mk ks vs cs false)).Pairwise vlt)
    (hint : ∀ x ∈ keyList (.mk ks vs cs false), IsIntV x)
    (hk : IsIntV k) (hfresh : k ∉ keyList (.mk ks vs cs false)) :
    vs.length = ks.length ∧ cs.length = (ks.zip vs).length + 1 ∧
    (ks.zip vs).length = ks.length ∧
    ks.Pairwise vlt ∧ (∀ x ∈ ks, IsIntV x) ∧ k ∉ ks ∧
    (∀ e ∈ (ks.zip vs).take (insPos k ks), vlt e.1 k) ∧
    (∀ e ∈ (ks.zip vs).drop (insPos k ks), vlt k e.1) := by
  obtain ⟨hv, hb, hclen, hcw⟩ := WFNode_internal_inv hwf
  have hzlen : (ks.zip vs).length = ks.length := by
    rw [List.length_zip]
    omega
  have hlen : cs.length = (ks.zip vs).length + 1 := by omega
  have hkeq : (ks.zip vs).map Prod.fst = ks := List.map_fst_zip ks vs (by omega)
  have hKL : keyList (.mk ks vs cs false)
      = (travList cs (ks.zip vs)).map Prod.fst := by
    unfold keyList
    rw [traverse_internal]
  have hsub : List.Sublist ks ((travList cs (ks.zip vs)).map Prod.fst) := by
    have h0 := (entries_sublist cs (ks.zip vs) (by omega)).map Prod.fst
    rw [hkeq] at h0
    exact h0
  have hsk : ks.Pairwise vlt := by
    rw [hKL] at hs
    exact hs.sublist hsub
  have hik : ∀ x ∈ ks, IsIntV x := by
    intro x hx
    apply hint
    rw [hKL]
    exact hsub.mem hx
  have hfk : k ∉ ks := by
    intro hcon
    apply hfresh
    rw [hKL]
    exact hsub.mem hcon
  refine ⟨hv, hlen, hzlen, hsk, hik, hfk, ?_, ?_⟩
  · intro e he
    have h1 : e.1 ∈ ks.take (insPos k ks) := by
      rw [zip_take] at he
      exact (List.of_mem_zip he).1
    exact insPos_take_bound k ks hsk hik hk hfk e.1 h1
  · intro e he
    have h1 : e.1 ∈ ks.drop (insPos k ks) := by
      rw [zip_drop] at he
      exact (List.of_mem_zip he).1
    exact insPos_drop_bound k ks e.1 h1

/-- The effect of `insertNonFull` on a well-formed, ordered, integer-keyed,
non-full tree with a fresh integer key: the new entry lands at its sorted
position in the traversal, and well-formedness is preserved. -/
theorem insertNonFull_spec (n : BNode) (k : Value) (v : Int) :
    WFNode n → (keyList n).Pairwise vlt → (∀ x ∈ keyList n, IsIntV x) →
    IsIntV k → k ∉ keyList n → n.keys.length < 7 →
    ∃ l1 l2, BNode.traverse n = l1 ++ l2 ∧
      (∀ e ∈ l1, vlt e.1 k) ∧ (∀ e ∈ l2, vlt k e.1) ∧
      BNode.traverse (insertNonFull n k v) = l1 ++ (k, v) :: l2 ∧
      WFNode (insertNonFull n k v) := by
  induction n, k, v using insertNonFull.induct with
  | case1 k v ks vs cs =>
    intro hwf hs hint hk hfresh hlt
    simp only [BNode.keys] at hlt
    obtain ⟨hv, hb, hcs⟩ := WFNode_leaf_inv hwf
    subst hcs
    have hkeq : (ks.zip vs).map Prod.fst = ks := List.map_fst_zip ks vs (by omega)
    have hKL : keyList (.mk ks vs ([] : List BNode) true) = ks := by
      unfold keyList
      rw [traverse_leaf, hkeq]
    rw [hKL] at hs hint hfresh
    have hple := insPos_le k ks
    refine ⟨(ks.zip vs).take (insPos k ks), (ks.zip vs).drop (insPos k ks), ?_, ?_, ?_, ?_, ?_⟩
    · rw [traverse_leaf]
      exact (List.take_append_drop _ _).symm
    · intro e he
      have h1 : e.1 ∈ ks.take (insPos k ks) := by
        rw [zip_take] at he
        exact (List.of_mem_zip he).1
      exact insPos_take_bound k ks hs hint hk hfresh e.1 h1
    · intro e he
      have h1 : e.1 ∈ ks.drop (insPos k ks) := by
        rw [zip_drop] at he
        exact (List.of_mem_zip he).1
      exact insPos_drop_bound k ks e.1 h1
    · rw [insertNonFull_leaf_eq, traverse_leaf]
      rw [insertAt_zip ks vs (insPos k ks) k v hple (by omega)]
      unfold insertAt
      rfl
    · rw [insertNonFull_leaf_eq]
      exact WFNode.leaf _ _
        (by rw [insertAt_length _ _ _ hple,
          insertAt_length _ _ _ (by omega : insPos k ks ≤ vs.length)]; omega)
        (by rw [insertAt_length _ _ _ hple]; omega)
  | case2 k v ks vs cs isLeaf hleaf i hnone =>
    intro hwf hs hint hk hfresh hlt
    exfalso
    have hL : isLeaf = false := by
      cases isLeaf
      · rfl
      · exact absurd rfl hleaf
    subst hL
    have hieq : i = insPos k ks := rfl
    rw [hieq] at hnone
    obtain ⟨hv, hb, hclen, hcw⟩ := WFNode_internal_inv hwf
    have h1 := List.get?_eq_none.1 hnone
    have h2 := insPos_le k ks
    omega
  | case3 k v ks vs cs isLeaf hleaf i c hc h7 ks' vs' cs' leaf' hp i' hnone =>
    intro hwf hs hint hk hfresh hlt
    exfalso
    have hL : isLeaf = false := by
      cases isLeaf
      · rfl
      · exact absurd rfl hleaf
    subst hL
    have hieq : i = insPos k ks := rfl
    rw [hieq] at hc hp
    have hi'eq : i' = if 0 < goCompare k (ks'.getD i Value.null)
        then i + 1 else i := rfl
    rw [hieq] at hi'eq
    rw [hi'eq] at hnone
    obtain ⟨hv, hb, hclen, hcw⟩ := WFNode_internal_inv hwf
    have hcw' : WFNode c := hcw c (List.get?_mem hc)
    have h7' : c.keys.length = 7 := le_antisymm (WFNode_keys_le hcw') h7
    obtain ⟨left, right, midk, midv, hspEq, hsplitc, hwl, hwr, hll, hrl⟩ :=
      splitChild_spec ks vs cs (insPos k ks) c hc hcw' h7'
    rw [hspEq] at hp
    injection hp with e1 e2 e3 e4
    subst e1
    subst e2
    subst e3
    subst e4
    have hple := insPos_le k ks
    have hlen' : (insertAt (insPos k ks + 1) right (cs.set (insPos k ks) left)).length
        = cs.length + 1 := by
      rw [insertAt_length _ _ _ (by simp; omega)]
      simp
    have h1 := List.get?_eq_none.1 hnone
    rw [hlen'] at h1
    split at h1 <;> omega
  | case4 k v ks vs cs isLeaf hleaf i c hc h7 ks' vs' cs' leaf' hp i' c2 hc' ih =>
    intro hwf hs hint hk hfresh hlt
    simp only [BNode.keys] at hlt
    have hL : isLeaf = false := by
      cases isLeaf
      · rfl
      · exact absurd rfl hleaf
    subst hL
    have hieq : i = insPos k ks := rfl
    rw [hieq] at hc hp
    have hi'eq : i' = if 0 < goCompare k (ks'.getD i Value.null)
        then i + 1 else i := rfl
    rw [hieq] at hi'eq
    rw [hi'eq] at hc'
    obtain ⟨hv0, hlen, hzlen, hsk, hik, hfk, hEtake, hEdrop⟩ :=
      internal_ctx ks vs cs k hwf hs hint hk hfresh
    obtain ⟨hv, hb, hclen, hcw⟩ := WFNode_internal_inv hwf
    have hple := insPos_le k ks
    have hcw' : WFNode c := hcw c (List.get?_mem hc)
    have h7' : c.keys.length = 7 := le_antisymm (WFNode_keys_le hcw') h7
    obtain ⟨left, right, midk, midv, hspEq, hsplitc, hwl, hwr, hll, hrl⟩ :=
      splitChild_spec ks vs cs (insPos k ks) c hc hcw' h7'
    rw [hspEq] at hp
    injection hp with e1 e2 e3 e4
    subst e1
    subst e2
    subst e3
    subst e4
    have hKL : keyList (.mk ks vs cs false)
        = (travList cs (ks.zip vs)).map Prod.fst := by
      unfold keyList
      rw [traverse_internal]
    rw [hKL] at hs hint hfresh
    have hshape := split_children_shape cs (insPos k ks) left right (by omega)
    have hzip2 : (insertAt (insPos k ks) midk ks).zip (insertAt (insPos k ks) midv vs)
        = insertAt (insPos k ks) (midk, midv) (ks.zip vs) :=
      insertAt_zip ks vs (insPos k ks) midk midv hple (by omega)
    have hSP : travList (insertAt (insPos k ks + 1) right (cs.set (insPos k ks) left))
        (insertAt (insPos k ks) (midk, midv) (ks.zip vs)) = travList cs (ks.zip vs) := by
      rw [hshape]
      exact splitChild_flat cs (ks.zip vs) (insPos k ks) c left right midk midv
        hlen (by omega) hc hsplitc
    have hlen2 : (insertAt (insPos k ks + 1) right (cs.set (insPos k ks) left)).length
        = (insertAt (insPos k ks) (midk, midv) (ks.zip vs)).length + 1 := by
      rw [insertAt_length _ _ _ (by simp; omega), insertAt_length _ _ _ (by omega)]
      simp
      omega
    have hs2 : ((travList (insertAt (insPos k ks + 1) right (cs.set (insPos k ks) left))
        (insertAt (insPos k ks) (midk, midv) (ks.zip vs))).map Prod.fst).Pairwise vlt := by
      rw [hSP]
      exact hs
    have hint2 : ∀ x ∈ (travList (insertAt (insPos k ks + 1) right
        (cs.set (insPos k ks) left))
        (insertAt (insPos k ks) (midk, midv) (ks.zip vs))).map Prod.fst, IsIntV x := by
      rw [hSP]
      exact hint
    have hmidmem : midk ∈ keyList c := by
      unfold keyList
      rw [hsplitc]
      simp
    have hmidks : midk ∈ (travList cs (ks.zip vs)).map Prod.fst :=
      (keyList_child_sublist (List.get?_mem hc) hlen).mem hmidmem
    have hmidint : IsIntV midk := hint midk hmidks
    have hkne : k ≠ midk := by
      intro hcon
      exact hfresh (hcon ▸ hmidks)
    have hgetD : (insertAt (insPos k ks) midk ks).getD (insPos k ks) Value.null = midk :=
      insertAt_getD ks (insPos k ks) midk Value.null hple
    have hsubL : List.Sublist (keyList left) (keyList c) := by
      unfold keyList
      rw [hsplitc]
      exact ((List.prefix_append _ _).sublist).map Prod.fst
    have hsubR : List.Sublist (keyList right) (keyList c) := by
      unfold keyList
      rw [hsplitc]
      exact (((List.Sublist.refl (BNode.traverse right)).cons _).trans
        (List.sublist_append_right _ _)).map Prod.fst
    have hsubC : List.Sublist (keyList c) ((travList cs (ks.zip vs)).map Prod.fst) :=
      keyList_child_sublist (List.get?_mem hc) hlen
    have hsC : (keyList c).Pairwise vlt := hs.sublist hsubC
    have hsL : (keyList left).Pairwise vlt := hsC.sublist hsubL
    have hsR : (keyList right).Pairwise vlt := hsC.sublist hsubR
    have hintL : ∀ x ∈ keyList left, IsIntV x :=
      fun x hx => hint x (hsubC.mem (hsubL.mem hx))
    have hintR : ∀ x ∈ keyList right, IsIntV x :=
      fun x hx => hint x (hsubC.mem (hsubR.mem hx))
    have hfreshL : k ∉ keyList left :=
      fun hcon => hfresh (hsubC.mem (hsubL.mem hcon))
    have hfreshR : k ∉ keyList right :=
      fun hcon => hfresh (hsubC.mem (hsubR.mem hcon))
    have hsplitKeys : keyList c
        = (BNode.traverse left).map Prod.fst
          ++ midk :: (BNode.traverse right).map Prod.fst := by
      unfold keyList
      rw [hsplitc]
      simp
    have hLmid : ∀ e ∈ BNode.traverse left, vlt e.1 midk := by
      intro e he
      rw [hsplitKeys] at hsC
      exact (List.pairwise_append.1 hsC).2.2 e.1 (List.mem_map.2 ⟨e, he, rfl⟩) midk (by simp)
    have hmidR : ∀ e ∈ BNode.traverse right, vlt midk e.1 := by
      intro e he
      rw [hsplitKeys] at hsC
      exact (List.pairwise_cons.1 (List.pairwise_append.1 hsC).2.1).1 e.1
        (List.mem_map.2 ⟨e, he, rfl⟩)
    rcases int_key_trichotomy hk hmidint with hkm | heqk | hmk
    · -- k below the median: descend into the left half at child index insPos k ks
      have hcond : ¬ 0 < goCompare k ((insertAt (insPos k ks) midk ks).getD
          (insPos k ks) Value.null) := by
        rw [hgetD]
        have h0 : goCompare k midk < 0 := hkm
        omega
      have hi'val : (if 0 < goCompare k ((insertAt (insPos k ks) midk ks).getD
          (insPos k ks) Value.null) then insPos k ks + 1 else insPos k ks)
          = insPos k ks := if_neg hcond
      rw [hi'val] at hc'
      have hgetL : (insertAt (insPos k ks + 1) right (cs.set (insPos k ks) left)).get?
          (insPos k ks) = some left := by
        rw [hshape]
        have h0 := get?_append_plus (cs.take (insPos k ks))
          (left :: right :: cs.drop (insPos k ks + 1)) 0
        have htk : (cs.take (insPos k ks)).length = insPos k ks := by simp; omega
        rw [htk] at h0
        simpa using h0
      rw [hgetL] at hc'
      injection hc' with hc2
      subst hc2
      obtain ⟨m1, m2, hm, hm1, hm2, hm', hwf'⟩ :=
        ih hwl hsL hintL hk hfreshL (by omega)
      obtain ⟨l1, l2, hfl, hb1, hb2, hfl'⟩ :=
        replace_child_insert
          (insertAt (insPos k ks + 1) right (cs.set (insPos k ks) left))
          (insertAt (insPos k ks) (midk, midv) (ks.zip vs))
          (insPos k ks) left (insertNonFull left k v) k v m1 m2
          hlen2
          (by rw [insertAt_length _ _ _ (by omega)]; omega)
          hgetL hs2 hint2 hk
          (by
            rw [insertAt_take_eq _ _ _ (by omega)]
            exact hEtake)
          (by
            rw [insertAt_drop_eq _ _ _ (by omega)]
            intro e he
            rcases List.mem_cons.1 he with rfl | he'
            · exact hkm
            · exact hEdrop e he')
          hm hm1 hm2 hm'
      refine ⟨l1, l2, ?_, hb1, hb2, ?_, ?_⟩
      · rw [traverse_internal, ← hSP]
        exact hfl
      · rw [insertNonFull_split_eq ks _ vs cs _ _ _ k v c left hc h7 hspEq _ rfl
          (by rw [hi'val]; exact hgetL)]
        rw [traverse_internal, hzip2, hi'val]
        exact hfl'
      · rw [insertNonFull_split_eq ks _ vs cs _ _ _ k v c left hc h7 hspEq _ rfl
          (by rw [hi'val]; exact hgetL)]
        rw [hi'val]
        refine WFNode.internal _ _ _ ?_ ?_ ?_ ?_
        · rw [insertAt_length _ _ _ hple, insertAt_length _ _ _ (by omega)]
          omega
        · rw [insertAt_length _ _ _ hple]
          omega
        · rw [List.length_set, insertAt_length _ _ _ (by simp; omega),
            insertAt_length _ _ _ hple]
          simp
          omega
        · intro x hx
          rcases List.mem_or_eq_of_mem_set hx with hx1 | rfl
          · rw [hshape] at hx1
            rcases List.mem_append.1 hx1 with hx2 | hx3
            · exact hcw x (List.mem_of_mem_take hx2)
            · rcases List.mem_cons.1 hx3 with rfl | hx4
              · exact hwl
              · rcases List.mem_cons.1 hx4 with rfl | hx5
                · exact hwr
                · exact hcw x (List.mem_of_mem_drop hx5)
          · exact hwf'
    · exact absurd heqk hkne
    · -- median below k: descend into the right half at child index insPos k ks + 1
      have hcond : 0 < goCompare k ((insertAt (insPos k ks) midk ks).getD
          (insPos k ks) Value.null) := by
        rw [hgetD]
        exact (goCompare_pos_iff hk hmidint).2 hmk
      have hi'val : (if 0 < goCompare k ((insertAt (insPos k ks) midk ks).getD
          (insPos k ks) Value.null) then insPos k ks + 1 else insPos k ks)
          = insPos k ks + 1 := if_pos hcond
      rw [hi'val] at hc'
      have hgetR : (insertAt (insPos k ks + 1) right (cs.set (insPos k ks) left)).get?
          (insPos k ks + 1) = some right := by
        rw [hshape]
        have h0 := get?_append_plus (cs.take (insPos k ks))
          (left :: right :: cs.drop (insPos k ks + 1)) 1
        have htk : (cs.take (insPos k ks)).length = insPos k ks := by simp; omega
        rw [htk] at h0
        simpa using h0
      rw [hgetR] at hc'
      injection hc' with hc2
      subst hc2
      obtain ⟨m1, m2, hm, hm1, hm2, hm', hwf'⟩ :=
        ih hwr hsR hintR hk hfreshR (by omega)
      obtain ⟨l1, l2, hfl, hb1, hb2, hfl'⟩ :=
        replace_child_insert
          (insertAt (insPos k ks + 1) right (cs.set (insPos k ks) left))
          (insertAt (insPos k ks) (midk, midv) (ks.zip vs))
          (insPos k ks + 1) right (insertNonFull right k v) k v m1 m2
          hlen2
          (by rw [insertAt_length _ _ _ (by omega)]; omega)
          hgetR hs2 hint2 hk
          (by
            intro e he
            have htk : ((ks.zip vs).take (insPos k ks)).length = insPos k ks := by
              simp
              omega
            have hsh : (insertAt (insPos k ks) (midk, midv) (ks.zip vs)).take
                (insPos k ks + 1)
                = (ks.zip vs).take (insPos k ks) ++ [(midk, midv)] := by
              unfold insertAt
              have h0 := take_append_plus ((ks.zip vs).take (insPos k ks))
                ((midk, midv) :: (ks.zip vs).drop (insPos k ks)) 1
              rw [htk] at h0
              simpa using h0
            rw [hsh] at he
            rcases List.mem_append.1 he with he1 | he2
            · exact hEtake e he1
            · rcases List.mem_singleton.1 he2 with rfl
              exact hmk
          )
          (by
            intro e he
            have htk : ((ks.zip vs).take (insPos k ks)).length = insPos k ks := by
              simp
              omega
            have hsh : (insertAt (insPos k ks) (midk, midv) (ks.zip vs)).drop
                (insPos k ks + 1) = (ks.zip vs).drop (insPos k ks) := by
              unfold insertAt
              have h0 := drop_append_plus ((ks.zip vs).take (insPos k ks))
                ((midk, midv) :: (ks.zip vs).drop (insPos k ks)) 1
              rw [htk] at h0
              simpa using h0
            rw [hsh] at he
            exact hEdrop e he)
          hm hm1 hm2 hm'
      refine ⟨l1, l2, ?_, hb1, hb2, ?_, ?_⟩
      · rw [traverse_internal, ← hSP]
        exact hfl
      · rw [insertNonFull_split_eq ks _ vs cs _ _ _ k v c right hc h7 hspEq _ rfl
          (by rw [hi'val]; exact hgetR)]
        rw [traverse_internal, hzip2, hi'val]
        exact hfl'
      · rw [insertNonFull_split_eq ks _ vs cs _ _ _ k v c right hc h7 hspEq _ rfl
          (by rw [hi'val]; exact hgetR)]
        rw [hi'val]
        refine WFNode.internal _ _ _ ?_ ?_ ?_ ?_
        · rw [insertAt_length _ _ _ hple, insertAt_length _ _ _ (by omega)]
          omega
        · rw [insertAt_length _ _ _ hple]
          omega
        · rw [List.length_set, insertAt_length _ _ _ (by simp; omega),
            insertAt_length _ _ _ hple]
          simp
          omega
        · intro x hx
          rcases List.mem_or_eq_of_mem_set hx with hx1 | rfl
          · rw [hshape] at hx1
            rcases List.mem_append.1 hx1 with hx2 | hx3
            · exact hcw x (List.mem_of_mem_take hx2)
            · rcases List.mem_cons.1 hx3 with rfl | hx4
              · exact hwl
              · rcases List.mem_cons.1 hx4 with rfl | hx5
                · exact hwr
                · exact hcw x (List.mem_of_mem_drop hx5)
          · exact hwf'
  | case5 k v ks vs cs isLeaf hleaf i c hc h7 ih =>
    intro hwf hs hint hk hfresh hlt
    simp only [BNode.keys] at hlt
    have hL : isLeaf = false := by
      cases isLeaf
      · rfl
      · exact absurd rfl hleaf
    subst hL
    have hieq : i = insPos k ks := rfl
    rw [hieq] at hc
    obtain ⟨hv0, hlen, hzlen, hsk, hik, hfk, hEtake, hEdrop⟩ :=
      internal_ctx ks vs cs k hwf hs hint hk hfresh
    obtain ⟨hv, hb, hclen, hcw⟩ := WFNode_internal_inv hwf
    have hple := insPos_le k ks
    have hKL : keyList (.mk ks vs cs false)
        = (travList cs (ks.zip vs)).map Prod.fst := by
      unfold keyList
      rw [traverse_internal]
    rw [hKL] at hs hint hfresh
    have hcmem : c ∈ cs := List.get?_mem hc
    have hcw' : WFNode c := hcw c hcmem
    have hsC : (keyList c).Pairwise vlt :=
      hs.sublist (keyList_child_sublist hcmem hlen)
    have hintC : ∀ x ∈ keyList c, IsIntV x :=
      fun x hx => hint x ((keyList_child_sublist hcmem hlen).mem hx)
    have hfreshC : k ∉ keyList c :=
      fun hcon => hfresh ((keyList_child_sublist hcmem hlen).mem hcon)
    obtain ⟨m1, m2, hm, hm1, hm2, hm', hwf'⟩ :=
      ih hcw' hsC hintC hk hfreshC (by omega)
    obtain ⟨l1, l2, hfl, hb1, hb2, hfl'⟩ :=
      replace_child_insert cs (ks.zip vs) (insPos k ks) c (insertNonFull c k v)
        k v m1 m2 hlen (by omega) hc hs hint hk hEtake hEdrop hm hm1 hm2 hm'
    refine ⟨l1, l2, ?_, hb1, hb2, ?_, ?_⟩
    · rw [traverse_internal]
      exact hfl
    · rw [insertNonFull_nosplit_eq ks vs cs k v c hc h7, traverse_internal]
      exact hfl'
    · rw [insertNonFull_nosplit_eq ks vs cs k v c hc h7]
      refine WFNode.internal _ _ _ hv hb (by simp; omega) ?_
      intro x hx
      rcases List.mem_or_eq_of_mem_set hx with hx1 | rfl
      · exact hcw x hx1
      · exact hwf'

/-- Splicing an entry between a lower and an upper part keeps the key
sequence strictly sorted. -/
theorem inserted_sorted (l1 l2 : List (Value × Int)) (k : Value) (v : Int)
    (hs : ((l1 ++ l2).map Prod.fst).Pairwise vlt)
    (hb1 : ∀ e ∈ l1, vlt e.1 k) (hb2 : ∀ e ∈ l2, vlt k e.1) :
    ((l1 ++ (k, v) :: l2).map Prod.fst).Pairwise vlt := by
  rw [List.map_append] at hs ⊢
  rw [List.map_cons]
  rw [List.pairwise_append] at hs ⊢
  obtain ⟨h1, h2, h12⟩ := hs
  refine ⟨h1, ?_, ?_⟩
  · rw [List.pairwise_cons]
    refine ⟨?_, h2⟩
    intro b hb
    obtain ⟨e, he, rfl⟩ := List.mem_map.1 hb
    exact hb2 e he
  · intro a ha b hb
    rcases List.mem_cons.1 hb with rfl | hb'
    · obtain ⟨e, he, rfl⟩ := List.mem_map.1 ha
      exact hb1 e he
    · exact h12 a ha b hb'

/-- A well-formed tree whose traversal splices a fresh integer entry into a
sorted integer-keyed decomposition satisfies the full invariant. -/
theorem inserted_good (t' : BNode) (l1 l2 : List (Value × Int)) (k : Value) (v : Int)
    (hwf : WFNode t')
    (htrav : BNode.traverse t' = l1 ++ (k, v) :: l2)
    (hs : ((l1 ++ l2).map Prod.fst).Pairwise vlt)
    (hint : ∀ x ∈ (l1 ++ l2).map Prod.fst, IsIntV x)
    (hb1 : ∀ e ∈ l1, vlt e.1 k) (hb2 : ∀ e ∈ l2, vlt k e.1)
    (hk : IsIntV k) : GoodTree t' := by
  refine ⟨hwf, ?_, ?_⟩
  · unfold keyList
    rw [htrav]
    exact inserted_sorted l1 l2 k v hs hb1 hb2
  · unfold keyList
    rw [htrav]
    intro x hx
    rw [List.map_append, List.map_cons] at hx
    rcases List.mem_append.1 hx with hx1 | hx2
    · exact hint x (by rw [List.map_append]; exact List.mem_append_left _ hx1)
    · rcases List.mem_cons.1 hx2 with rfl | hx3
      · exact hk
      · exact hint x (by rw [List.map_append]; exact List.mem_append_right _ hx3)

/-- `BTree.Insert` on a good tree: a present key is rejected with the
duplicate-key error; a fresh integer key is inserted at its sorted position
(splitting a full root if needed), preserving the invariant. -/
theorem btInsert_spec (t : BNode) (k : Value) (v : Int)
    (hg : GoodTree t) (hk : IsIntV k) :
    (k ∈ keyList t → btInsert t k v = .error (.duplicateKey k)) ∧
    (k ∉ keyList t → ∃ t' l1 l2,
      btInsert t k v = .ok t' ∧
      BNode.traverse t = l1 ++ l2 ∧
      (∀ e ∈ l1, vlt e.1 k) ∧ (∀ e ∈ l2, vlt k e.1) ∧
      BNode.traverse t' = l1 ++ (k, v) :: l2 ∧ GoodTree t') := by
  obtain ⟨hwf, hs, hint⟩ := hg
  constructor
  · intro hmem
    obtain ⟨e, he, hfst⟩ := List.mem_map.1 hmem
    have he' : (k, e.2) ∈ BNode.traverse t := by
      have h0 : e = (k, e.2) := by
        obtain ⟨e1, e2⟩ := e
        simp only at hfst
        rw [hfst]
      rw [← h0]
      exact he
    have hfound := (searchNode_spec t hwf hs hint k hk).1 e.2 he'
    unfold btInsert
    rw [hfound]
    simp
  · intro hfresh
    have hnf := (searchNode_spec t hwf hs hint k hk).2 hfresh
    by_cases h7 : 7 ≤ t.keys.length
    · have h7' : t.keys.length = 7 := le_antisymm (WFNode_keys_le hwf) h7
      obtain ⟨left, right, midk, midv, hspEq, hsplitc, hwl, hwr, hll, hrl⟩ :=
        splitChild_spec [] [] [t] 0 t rfl hwf h7'
      have hP : splitChild (.mk [] [] [t] false) 0
          = .mk [midk] [midv] [left, right] false := by
        rw [hspEq]
        rfl
      have hRtrav : BNode.traverse (.mk [midk] [midv] [left, right] false)
          = BNode.traverse t := by
        rw [traverse_internal]
        show travList [left, right] [(midk, midv)] = BNode.traverse t
        rw [travList_cons, travList_last]
        exact hsplitc.symm
      have hwfR : WFNode (.mk [midk] [midv] [left, right] false) :=
        WFNode.internal _ _ _ rfl (by simp) rfl (by
          intro c hc
          rcases List.mem_cons.1 hc with rfl | hc2
          · exact hwl
          · rcases List.mem_cons.1 hc2 with rfl | hc3
            · exact hwr
            · cases hc3)
      have hKLR : keyList (.mk [midk] [midv] [left, right] false) = keyList t := by
        unfold keyList
        rw [hRtrav]
      obtain ⟨l1, l2, hfl, hb1, hb2, hfl', hwf'⟩ :=
        insertNonFull_spec (.mk [midk] [midv] [left, right] false) k v hwfR
          (by rw [hKLR]; exact hs) (by rw [hKLR]; exact hint) hk
          (by rw [hKLR]; exact hfresh) (by simp [BNode.keys])
      rw [hRtrav] at hfl
      refine ⟨insertNonFull (.mk [midk] [midv] [left, right] false) k v, l1, l2,
        ?_, hfl, hb1, hb2, hfl', ?_⟩
      · unfold btInsert
        rw [hnf]
        rw [if_neg (by simp), if_pos h7, hP]
      · refine inserted_good _ l1 l2 k v hwf' hfl' ?_ ?_ hb1 hb2 hk
        · rw [← hfl]
          exact hs
        · rw [← hfl]
          exact hint
    · obtain ⟨l1, l2, hfl, hb1, hb2, hfl', hwf'⟩ :=
        insertNonFull_spec t k v hwf hs hint hk hfresh (by omega)
      refine ⟨insertNonFull t k v, l1, l2, ?_, hfl, hb1, hb2, hfl', ?_⟩
      · unfold btInsert
        rw [hnf]
        rw [if_neg (by simp), if_neg h7]
      · refine inserted_good _ l1 l2 k v hwf' hfl' ?_ ?_ hb1 hb2 hk
        · rw [← hfl]
          exact hs
        · rw [← hfl]
          exact hint

/-- Folding `BTree.Insert` over fresh, pairwise-distinct integer keys
succeeds, preserves the invariant, and yields a traversal that is a
permutation of the old entries plus the new ones. -/
theorem insertAll_spec (l : List (Int × Int)) :
    ∀ t : BNode, GoodTree t → (∀ p ∈ l, Value.int p.1 ∉ keyList t) →
    (l.map Prod.fst).Nodup →
    ∃ t', insertAll t l = .ok t' ∧ GoodTree t' ∧
      (BNode.traverse t').Perm
        (BNode.traverse t ++ l.map (fun p => (Value.int p.1, p.2))) := by
  induction l with
  | nil =>
    intro t hg hnd hndl
    exact ⟨t, rfl, hg, by simp⟩
  | cons p rest ih =>
    intro t hg hnd hndl
    obtain ⟨k0, v0⟩ := p
    have hk : IsIntV (Value.int k0) := ⟨k0, rfl⟩
    have hfresh : Value.int k0 ∉ keyList t := hnd (k0, v0) (by simp)
    obtain ⟨t1, l1, l2, hok, hflT, hb1, hb2, hfl', hg1⟩ :=
      (btInsert_spec t (Value.int k0) v0 hg hk).2 hfresh
    have hmem1 : ∀ x, x ∈ keyList t1 → x = Value.int k0 ∨ x ∈ keyList t := by
      intro x hx
      unfold keyList at hx ⊢
      rw [hfl', List.map_append, List.map_cons] at hx
      rcases List.mem_append.1 hx with h1 | h2
      · right
        rw [hflT, List.map_append]
        exact List.mem_append_left _ h1
      · rcases List.mem_cons.1 h2 with rfl | h3
        · left
          rfl
        · right
          rw [hflT, List.map_append]
          exact List.mem_append_right _ h3
    have hnd1 : ∀ q ∈ rest, Value.int q.1 ∉ keyList t1 := by
      intro q hq hcon
      rcases hmem1 _ hcon with heq | hmem
      · have hq1 : q.1 = k0 := by injection heq
        have hk0mem : k0 ∈ rest.map Prod.fst := hq1 ▸ List.mem_map.2 ⟨q, hq, rfl⟩
        rw [List.map_cons, List.nodup_cons] at hndl
        exact hndl.1 hk0mem
      · exact hnd q (List.mem_cons_of_mem _ hq) hmem
    have hndl1 : (rest.map Prod.fst).Nodup := by
      rw [List.map_cons, List.nodup_cons] at hndl
      exact hndl.2
    obtain ⟨t', hok', hg', hperm⟩ := ih t1 hg1 hnd1 hndl1
    refine ⟨t', ?_, hg', ?_⟩
    · show insertAll t ((k0, v0) :: rest) = .ok t'
      unfold insertAll
      rw [hok]
      exact hok'
    · have hp1 : (BNode.traverse t1
          ++ rest.map (fun p => (Value.int p.1, p.2))).Perm
          (BNode.traverse t
            ++ ((Value.int k0, v0) :: rest.map (fun p => (Value.int p.1, p.2)))) := by
        rw [hfl', hflT]
        have h2 : (l1 ++ (Value.int k0, v0) :: l2).Perm
            ((Value.int k0, v0) :: (l1 ++ l2)) := List.perm_middle
        have h3 := h2.append_right (rest.map (fun p => (Value.int p.1, p.2)))
        refine h3.trans ?_
        show ((Value.int k0, v0)
          :: ((l1 ++ l2) ++ rest.map (fun p => (Value.int p.1, p.2)))).Perm _
        exact List.perm_middle.symm
      exact hperm.trans hp1

/-- C4: inserting any list of pairwise-distinct integer keys (with arbitrary
row positions, in any order) into a fresh B-tree succeeds, and afterwards
`GetAll` returns exactly one `(key, position)` pair per insertion — a
permutation of the inserted pairs — in strictly ascending key order
(`compare`-order on the keys), `Search` finds every inserted key with its
inserted position and `found = true`, and `Search` reports `(-1, false)` for
every integer key never inserted. -/
theorem btree_insert_search_getall (l : List (Int × Int))
    (hnd : (l.map Prod.fst).Nodup) :
    ∃ t, insertAll emptyBNode l = .ok t ∧
      (getAll t).Perm (l.map (fun p => (Value.int p.1, p.2))) ∧
      (getAll t).length = l.length ∧
      ((getAll t).map Prod.fst).Pairwise vlt ∧
      (∀ p ∈ l, searchNode t (Value.int p.1) = (p.2, true)) ∧
      (∀ m : Int, m ∉ l.map Prod.fst → searchNode t (Value.int m) = (-1, false)) := by
  have hKe : keyList emptyBNode = [] := by
    unfold keyList emptyBNode
    rw [traverse_leaf]
    rfl
  have hge : GoodTree emptyBNode :=
    ⟨WFNode.leaf [] [] rfl (by simp),
     by rw [hKe]; exact List.Pairwise.nil,
     by rw [hKe]; intro x hx; cases hx⟩
  obtain ⟨t, hok, hg, hperm⟩ := insertAll_spec l emptyBNode hge
    (by intro p hp; rw [hKe]; exact List.not_mem_nil _) hnd
  have hTe : BNode.traverse emptyBNode = [] := by
    unfold emptyBNode
    rw [traverse_leaf]
    rfl
  rw [hTe, List.nil_append] at hperm
  obtain ⟨hwf, hs, hint⟩ := hg
  refine ⟨t, hok, hperm, ?_, hs, ?_, ?_⟩
  · show (BNode.traverse t).length = l.length
    rw [hperm.length_eq, List.length_map]
  · intro p hp
    have hmem : (Value.int p.1, p.2) ∈ BNode.traverse t :=
      hperm.mem_iff.2 (List.mem_map.2 ⟨p, hp, rfl⟩)
    exact (searchNode_spec t hwf hs hint (Value.int p.1) ⟨p.1, rfl⟩).1 p.2 hmem
  · intro m hm
    have hnmem : Value.int m ∉ keyList t := by
      intro hcon
      obtain ⟨e, he, hfst⟩ := List.mem_map.1 hcon
      have he2 := hperm.mem_iff.1 he
      obtain ⟨q, hq, hqe⟩ := List.mem_map.1 he2
      apply hm
      have h5 : Value.int q.1 = Value.int m := by
        rw [← hqe] at hfst
        exact hfst
      injection h5 with h6
      exact List.mem_map.2 ⟨q, hq, h6⟩
    exact (searchNode_spec t hwf hs hint (Value.int m) ⟨m, rfl⟩).2 hnmem

/-- Witness for C4 at the concrete insertion sequence (2,20), (1,10), (3,30). -/
theorem btree_insert_search_getall_witness :
    ((([(2, 20), (1, 10), (3, 30)] : List (Int × Int)).map Prod.fst).Nodup) ∧
    (∃ t, insertAll emptyBNode ([(2, 20), (1, 10), (3, 30)] : List (Int × Int)) = .ok t ∧
      (getAll t).Perm (([(2, 20), (1, 10), (3, 30)] : List (Int × Int)).map
        (fun p => (Value.int p.1, p.2))) ∧
      (getAll t).length = ([(2, 20), (1, 10), (3, 30)] : List (Int × Int)).length ∧
      ((getAll t).map Prod.fst).Pairwise vlt ∧
      (∀ p ∈ ([(2, 20), (1, 10), (3, 30)] : List (Int × Int)),
        searchNode t (Value.int p.1) = (p.2, true)) ∧
      (∀ m : Int, m ∉ ([(2, 20), (1, 10), (3, 30)] : List (Int × Int)).map Prod.fst →
        searchNode t (Value.int m) = (-1, false))) :=
  ⟨by decide, btree_insert_search_getall ([(2, 20), (1, 10), (3, 30)] : List (Int × Int))
    (by decide)⟩
